import Mathlib

/-!
# Verification of the SCAP Workbench tailoring window (`src/TailoringWindow.cpp`)

Shallow embedding of the tailoring-window logic: the document-level state
(profile select/set-value overrides, localized title/description texts), the
policy evaluation view, the undo-command set and the Qt undo-stack semantics,
the tree synchronizer with its reentrancy lock, the property panels with their
refresh guards, and the close-event handling.

The openscap library primitives (`xccdf_policy_get_select_by_id`,
`xccdf_policy_get_value_of_item`, `oscapTextIteratorGetPreferred`, ...) are not
part of the repository source; they are modelled from the spec's interface
description (newest override wins; preferred text selects the
default-language variant).  Everything else is translated from
`src/TailoringWindow.cpp`.
-/

namespace TailoringWindow

/-- A localized `(language, text)` pair (`struct oscap_text`). -/
structure OscapText where
  lang : String
  text : String
deriving DecidableEq, Repr

/-- An XCCDF `select` override (`struct xccdf_select`): item id plus flag. -/
structure XccdfSelect where
  item : String
  selected : Bool
deriving DecidableEq, Repr

/-- An XCCDF `set-value` override (`struct xccdf_setvalue`): item id plus value. -/
structure XccdfSetValue where
  item : String
  value : String
deriving DecidableEq, Repr

/-- The tailoring target (`struct xccdf_profile`): its id, ordered override
lists, and localized title/description text blocks. -/
structure XccdfProfile where
  id : String
  selects : List XccdfSelect
  setvalues : List XccdfSetValue
  titles : List OscapText
  descriptions : List OscapText
deriving DecidableEq, Repr

/-- The policy evaluation view (`struct xccdf_policy`); it keeps its own
working list of select overrides (`xccdf_policy_add_select`). -/
structure XccdfPolicy where
  selects : List XccdfSelect
deriving DecidableEq, Repr

/-- The four XCCDF item types distinguished by `xccdf_item_get_type`. -/
inductive XccdfType where
  | benchmark | group | rule | value
deriving DecidableEq, Repr

/-- The document-side identity of an XCCDF item as the window code reads it:
its id (`xccdf_item_get_id`), its type (`xccdf_item_get_type`) and its
document-default selection flag (`xccdf_item_get_selected`). -/
structure BackingRef where
  id : String
  ty : XccdfType
  defaultSelected : Bool
deriving DecidableEq, Repr

/-- A tunable value item (`struct xccdf_value`): id plus the document-default
value the policy falls back to when the profile carries no override. -/
structure XccdfValue where
  id : String
  defaultValue : String
deriving DecidableEq, Repr

/-- The mutable document state the tailoring window edits: the profile it owns
a reference to, and the policy bound to that profile. -/
structure DocState where
  profile : XccdfProfile
  policy : XccdfPolicy
deriving DecidableEq, Repr

/-! ## Library primitives (modelled from the spec) -/

/-- Modelled from the spec: `OSCAP_LANG_DEFAULT`, "the configured default
language" tag used by the title/description mutation rule.  Its concrete
spelling is irrelevant to every property proved here. -/
def OSCAP_LANG_DEFAULT : String := "en"

/-- Modelled from the spec: `xccdf_policy_get_select_by_id` — the select
override currently in force for an item id.  The spec requires that
"immediately after a Select ... override is added for item X, querying the
Policy for X must reflect the new override (no stale caching)", so the newest
(last appended) select for the id wins. -/
def getSelectById (pol : XccdfPolicy) (id : String) : Option XccdfSelect :=
  pol.selects.reverse.find? (fun s => s.item == id)

/-- `getXccdfItemInternalSelected` (TailoringWindow.cpp:537-541): the policy's
select override for the item if present, else the item's document default. -/
def getXccdfItemInternalSelected (pol : XccdfPolicy) (item : BackingRef) : Bool :=
  match getSelectById pol item.id with
  | some select => select.selected
  | none => item.defaultSelected

/-- Modelled from the spec: `xccdf_policy_get_value_of_item` — the effective
value of a tunable under the policy: the newest SetValue override in the
profile for the item's id, else the document default.  (Spec: the Policy
"answers ... what is the effective value of value-item X by layering
Select/SetValue overrides on top of document defaults", newest override in
force.) -/
def getValueOfItem (prof : XccdfProfile) (v : XccdfValue) : String :=
  match prof.setvalues.reverse.find? (fun sv => sv.item == v.id) with
  | some sv => sv.value
  | none => v.defaultValue

/-- Modelled from the spec: `oscapTextIteratorGetPreferred` — "localized text,
one variant selected by locale-preference rule": the default-language entry if
one exists, else the first entry; empty string for an empty text block. -/
def preferredText (ts : List OscapText) : String :=
  match ts.find? (fun t => t.lang == OSCAP_LANG_DEFAULT) with
  | some t => t.text
  | none => ((ts.head?).map OscapText.text).getD ""

/-! ## Document-level mutators (`TailoringWindow` member functions) -/

/-- `TailoringWindow::setItemSelected` (lines 543-559): build a new select
`(id, selected)`, append it to the profile and (a clone of it) to the policy,
then check the post-condition and throw a `TailoringWindowException` if the
item does not read back as `selected`. -/
def setItemSelected (s : DocState) (item : BackingRef) (selected : Bool) :
    Except String DocState :=
  let newSelect : XccdfSelect := { item := item.id, selected := selected }
  let s' : DocState :=
    { profile := { s.profile with selects := s.profile.selects ++ [newSelect] }
      policy := { selects := s.policy.selects ++ [newSelect] } }
  if getXccdfItemInternalSelected s'.policy item != selected then
    .error "Even though xccdf_select was added to both profile and policy, the item kept its old selection."
  else
    .ok s'

/-- `TailoringWindow::getCurrentValueValue` (lines 723-726). -/
def getCurrentValueValue (s : DocState) (v : XccdfValue) : String :=
  getValueOfItem s.profile v

/-- `TailoringWindow::setValueValue` (lines 707-716): build a setvalue
`(id, newValue)`, append it to the profile, then `assert` that the value reads
back as `newValue` (modelled as a checked fatal error). -/
def setValueValue (s : DocState) (v : XccdfValue) (newValue : String) :
    Except String DocState :=
  let s' : DocState :=
    { s with profile :=
        { s.profile with setvalues :=
            s.profile.setvalues ++ [{ item := v.id, value := newValue }] } }
  if getCurrentValueValue s' v != newValue then
    .error "assert(getCurrentValueValue(xccdfValue) == newValue) failed"
  else
    .ok s'

/-- The candidate-selection loop in `TailoringWindow::setProfileTitle` /
`setProfileDescription` (lines 740-748 and 776-784): walk the text entries
keeping the index of the current pick; the first entry is picked
unconditionally, and every later entry tagged with `OSCAP_LANG_DEFAULT`
replaces the pick. -/
def pickEditIdxAux (best : Option Nat) (i : Nat) : List OscapText → Option Nat
  | [] => best
  | t :: rest =>
      pickEditIdxAux
        (if best.isNone || t.lang == OSCAP_LANG_DEFAULT then some i else best)
        (i + 1) rest

/-- Index of the text entry the mutation edits (none for an empty block). -/
def pickEditIdx (ts : List OscapText) : Option Nat :=
  pickEditIdxAux none 0 ts

/-- The shared body of `setProfileTitle` / `setProfileDescription`
(lines 738-762 / 774-798, textually duplicated in the source): edit the picked
entry in place (`oscap_text_set_text` + `oscap_text_set_lang`), or fail fatally
when the text block is empty (the `throw TailoringWindowException` branch,
"Not suitable oscap_text found"). -/
def editOscapTextList (ts : List OscapText) (newText : String) :
    Except String (List OscapText) :=
  match pickEditIdx ts with
  | some j => .ok (ts.set j { lang := OSCAP_LANG_DEFAULT, text := newText })
  | none => .error "Not suitable oscap_text found that we could edit."

/-- `TailoringWindow::getProfileID` (lines 733-736). -/
def getProfileID (s : DocState) : String :=
  s.profile.id

/-- `TailoringWindow::getProfileTitle` (lines 764-767). -/
def getProfileTitle (s : DocState) : String :=
  preferredText s.profile.titles

/-- `TailoringWindow::getProfileDescription` (lines 800-803). -/
def getProfileDescription (s : DocState) : String :=
  preferredText s.profile.descriptions

/-- `TailoringWindow::setProfileTitle` (lines 738-762), including the trailing
`assert(getProfileTitle() == title)` modelled as a checked fatal error. -/
def setProfileTitle (s : DocState) (title : String) : Except String DocState := do
  let ts ← editOscapTextList s.profile.titles title
  let s' : DocState := { s with profile := { s.profile with titles := ts } }
  if getProfileTitle s' != title then
    .error "assert(getProfileTitle() == title) failed"
  else
    .ok s'

/-- `TailoringWindow::setProfileDescription` (lines 774-798), including the
trailing `assert`. -/
def setProfileDescription (s : DocState) (description : String) :
    Except String DocState := do
  let ts ← editOscapTextList s.profile.descriptions description
  let s' : DocState := { s with profile := { s.profile with descriptions := ts } }
  if getProfileDescription s' != description then
    .error "assert(getProfileDescription() == description) failed"
  else
    .ok s'

/-- Well-formedness of a localized text block, as the spec's data model posits
("one designated default-language entry"): no two distinct entries are both
tagged with the default language. -/
def NoTwoDefaults (ts : List OscapText) : Prop :=
  ts.Pairwise (fun a b =>
    a.lang = OSCAP_LANG_DEFAULT → b.lang = OSCAP_LANG_DEFAULT → False)

instance (ts : List OscapText) : Decidable (NoTwoDefaults ts) := by
  unfold NoTwoDefaults; infer_instance

/-! ## Undo command set (lines 229-386)

Each Qt command class is one constructor; the payload mirrors the member
variables of the class (`mOldTitle`/`mNewTitle`, `mXccdfValue`/`mNewValue`/
`mOldValue`, `mTreeItem`'s backing item plus `mNewSelect`). -/

inductive UndoCmd where
  | selectToggle (item : BackingRef) (newSelect : Bool)
  | profileTitleChange (oldTitle newTitle : String)
  | profileDescriptionChange (oldDesc newDesc : String)
  | valueChange (value : XccdfValue) (newValue oldValue : String)
deriving DecidableEq, Repr

/-- The numeric merge id of each command class (`id()` overrides:
lines 319-322, 240-243, 281-284, 356-359). -/
def UndoCmd.cmdId : UndoCmd → Nat
  | .selectToggle .. => 1
  | .profileTitleChange .. => 2
  | .profileDescriptionChange .. => 3
  | .valueChange .. => 4

/-- `mergeWith` of each command class.  Each override first rejects a
different id; since the ids are constructor-determined the match encodes
that check.  `XCCDFItemSelectUndoCommand` has no `mergeWith` override, so it
inherits `QUndoCommand::mergeWith` which always refuses (the catch-all).
`XCCDFValueChangeUndoCommand::mergeWith` (lines 361-374) additionally
requires the same target value item (`command->mXccdfValue != mXccdfValue`),
and absorbs only the new value; the title/description overrides
(lines 257-264, 298-305) absorb the new text unconditionally. -/
def UndoCmd.mergeWith : UndoCmd → UndoCmd → Option UndoCmd
  | .profileTitleChange o _, .profileTitleChange _ n2 =>
      some (.profileTitleChange o n2)
  | .profileDescriptionChange o _, .profileDescriptionChange _ n2 =>
      some (.profileDescriptionChange o n2)
  | .valueChange v _ o, .valueChange v2 n2 _ =>
      if v2 = v then some (.valueChange v n2 o) else none
  | _, _ => none

/-- `redo()` of each command class, restricted to its document-level effect
(each also triggers a display refresh: `synchronizeTreeItem` non-recursively
for the select command, a dock-widget `refresh()` for the others — those touch
only the display state, modelled separately). -/
def UndoCmd.redoOn : UndoCmd → DocState → Except String DocState
  | .selectToggle item newSelect, s => setItemSelected s item newSelect
  | .profileTitleChange _ newTitle, s => setProfileTitle s newTitle
  | .profileDescriptionChange _ newDesc, s => setProfileDescription s newDesc
  | .valueChange v newValue _, s => setValueValue s v newValue

/-- `undo()` of each command class (document-level effect; the select command
applies the negated flag, lines 331-336). -/
def UndoCmd.undoOn : UndoCmd → DocState → Except String DocState
  | .selectToggle item newSelect, s => setItemSelected s item (!newSelect)
  | .profileTitleChange oldTitle _, s => setProfileTitle s oldTitle
  | .profileDescriptionChange oldDesc _, s => setProfileDescription s oldDesc
  | .valueChange v _ oldValue, s => setValueValue s v oldValue

/-! ## The undo stack (`QUndoStack` linear-history semantics)

`mUndoStack` is a plain `QUndoStack`; its `push`/`undo`/`setIndex` semantics
are the Qt ones the spec describes in §4.5: `push` executes the command's
`redo()`, discards every command after the current position, then either
merges the command into the top entry (possible only when the ids are equal
and the top's `mergeWith` accepts) or appends it; `undo` at position 0 does
nothing, otherwise it runs `undo()` of the command below the position and
decrements; `setIndex(0)` undoes repeatedly down to position 0.  (The
clean-index restriction on merging never bites here: `setClean` is never
called, so the clean index stays 0, and a merge candidate only exists at
positions ≥ 1.) -/

structure UndoStack where
  cmds : List UndoCmd
  index : Nat
deriving DecidableEq, Repr

def UndoStack.empty : UndoStack := ⟨[], 0⟩

def pushCmd (s : DocState) (st : UndoStack) (cmd : UndoCmd) :
    Except String (DocState × UndoStack) := do
  let s' ← cmd.redoOn s
  let kept := st.cmds.take st.index
  match kept.getLast? with
  | some cur =>
      match cur.mergeWith cmd with
      | some merged => .ok (s', ⟨kept.dropLast ++ [merged], st.index⟩)
      | none => .ok (s', ⟨kept ++ [cmd], st.index + 1⟩)
  | none => .ok (s', ⟨kept ++ [cmd], st.index + 1⟩)

def undoStep (s : DocState) (st : UndoStack) :
    Except String (DocState × UndoStack) :=
  match st.index with
  | 0 => .ok (s, st)
  | n + 1 =>
      match st.cmds[n]? with
      | some c => do
          let s' ← c.undoOn s
          .ok (s', ⟨st.cmds, n⟩)
      | none => .ok (s, ⟨st.cmds, n⟩)

def undoN : Nat → DocState → UndoStack → Except String (DocState × UndoStack)
  | 0, s, st => .ok (s, st)
  | n + 1, s, st => do
      let (s', st') ← undoStep s st
      undoN n s' st'

/-- `setIndex(0)` as invoked from `closeEvent` (line 843): undo everything
down to position 0. -/
def setIndexZero (s : DocState) (st : UndoStack) :
    Except String (DocState × UndoStack) :=
  undoN st.index s st

/-! ## Change handlers (the places that construct and push commands) -/

/-- The push decision of `TailoringWindow::itemChanged` (lines 866-886): with
the synchronize lock held, or for a tree item with no backing document item,
or for a Value item, or when the checkbox state equals the policy-evaluated
effective selection, nothing is pushed; otherwise a select command carrying
the new checkbox state is pushed.  (The trailing
`_syncXCCDFItemChildrenDisabledState` call touches only display enablement
and is modelled with the tree synchronizer.) -/
def itemChangedPush (pol : XccdfPolicy) (lock : Nat) (backing : Option BackingRef)
    (checkState : Bool) : Option UndoCmd :=
  if lock > 0 then none
  else
    match backing with
    | none => none
    | some item =>
        if item.ty = XccdfType.value then none
        else if checkState != getXccdfItemInternalSelected pol item then
          some (.selectToggle item checkState)
        else none

/-- The user-interaction events that reach the undo stack: toggling a tree
checkbox (`itemChanged`), editing the value combo box
(`setValueValueWithUndoCommand`, lines 728-731), editing the profile title
(`setProfileTitleWithUndoCommand`, lines 769-772) and editing the description
(`setProfileDescriptionWithUndoCommand`, lines 805-808).  Each handler
captures the old value from the current document state at push time. -/
inductive EditEvent where
  | setCheck (item : BackingRef) (check : Bool)
  | editValue (v : XccdfValue) (newValue : String)
  | editTitle (newTitle : String)
  | editDescription (newDesc : String)
deriving DecidableEq, Repr

def applyEvent (s : DocState) (st : UndoStack) :
    EditEvent → Except String (DocState × UndoStack)
  | .setCheck item check =>
      match itemChangedPush s.policy 0 (some item) check with
      | some cmd => pushCmd s st cmd
      | none => .ok (s, st)
  | .editValue v nv => pushCmd s st (.valueChange v nv (getCurrentValueValue s v))
  | .editTitle t => pushCmd s st (.profileTitleChange (getProfileTitle s) t)
  | .editDescription d =>
      pushCmd s st (.profileDescriptionChange (getProfileDescription s) d)

def applyEvents (s : DocState) (st : UndoStack) :
    List EditEvent → Except String (DocState × UndoStack)
  | [] => .ok (s, st)
  | e :: rest => do
      let (s', st') ← applyEvent s st e
      applyEvents s' st' rest

/-! ## The tree synchronizer (lines 391-423, 561-705)

The document hierarchy (`struct xccdf_item`) and the displayed tree
(`QTreeWidgetItem`).  A document item carries what the synchronizer reads:
id, type, default selection flag, display title, and — for groups and the
benchmark — children.  `xccdf_group_get_values`/`xccdf_benchmark_get_values`
enumerate the Value children and `..._get_content` the Rule/Group children,
both in document order; here the children are one document-ordered list and
the two iterators are its two type filters.

Every mutation of a `QTreeWidgetItem` (text, data, flags, check state,
disabled flag) synchronously emits the tree's `itemChanged` signal, which
runs `TailoringWindow::itemChanged`.  The synchronizer model records each
such notification as a pair of the current lock value and the handler's push
decision (`itemChangedPush`); the recorded decision is provably always
`none` inside a synchronize call, which is why the model need not execute
pushes reentrantly. -/

inductive XccdfItem where
  | mk (id : String) (ty : XccdfType) (defaultSelected : Bool) (title : String)
      (children : List XccdfItem)
deriving Repr

def XccdfItem.id : XccdfItem → String
  | .mk i _ _ _ _ => i

def XccdfItem.ty : XccdfItem → XccdfType
  | .mk _ t _ _ _ => t

def XccdfItem.defaultSelected : XccdfItem → Bool
  | .mk _ _ d _ _ => d

def XccdfItem.title : XccdfItem → String
  | .mk _ _ _ t _ => t

def XccdfItem.children : XccdfItem → List XccdfItem
  | .mk _ _ _ _ c => c

/-- The `BackingRef` stored into a display node for a document item. -/
def refOf (it : XccdfItem) : BackingRef :=
  ⟨it.id, it.ty, it.defaultSelected⟩

inductive TreeItem where
  | mk (text idText : String) (backing : Option BackingRef)
      (checkable checkState disabled : Bool) (children : List TreeItem)
deriving Repr

namespace TreeItem

def text : TreeItem → String
  | .mk x _ _ _ _ _ _ => x

def idText : TreeItem → String
  | .mk _ x _ _ _ _ _ => x

def backing : TreeItem → Option BackingRef
  | .mk _ _ x _ _ _ _ => x

def checkable : TreeItem → Bool
  | .mk _ _ _ x _ _ _ => x

def checkState : TreeItem → Bool
  | .mk _ _ _ _ x _ _ => x

def disabled : TreeItem → Bool
  | .mk _ _ _ _ _ x _ => x

def children : TreeItem → List TreeItem
  | .mk _ _ _ _ _ _ x => x

def backingId (t : TreeItem) : Option String :=
  t.backing.map BackingRef.id

def withText (t : TreeItem) (v : String) : TreeItem :=
  match t with | .mk _ b c d e f g => .mk v b c d e f g

def withIdText (t : TreeItem) (v : String) : TreeItem :=
  match t with | .mk a _ c d e f g => .mk a v c d e f g

def withBacking (t : TreeItem) (v : Option BackingRef) : TreeItem :=
  match t with | .mk a b _ d e f g => .mk a b v d e f g

def withCheckable (t : TreeItem) (v : Bool) : TreeItem :=
  match t with | .mk a b c _ e f g => .mk a b c v e f g

def withCheckState (t : TreeItem) (v : Bool) : TreeItem :=
  match t with | .mk a b c d _ f g => .mk a b c d v f g

def withDisabled (t : TreeItem) (v : Bool) : TreeItem :=
  match t with | .mk a b c d e _ g => .mk a b c d e v g

def withChildren (t : TreeItem) (v : List TreeItem) : TreeItem :=
  match t with | .mk a b c d e f _ => .mk a b c d e f v

end TreeItem

/-- A freshly constructed child node (line 687-692): flags are
`ItemIsSelectable | ItemIsEnabled` (not checkable, not disabled), no data
yet. -/
def freshTreeItem : TreeItem :=
  .mk "" "" none false false false []

/-- `QTreeWidgetItem::insertChild(idx, child)`. -/
def insertChildAt (idx : Nat) (c : TreeItem) (l : List TreeItem) : List TreeItem :=
  l.take idx ++ c :: l.drop idx

/-- The synchronizer-visible window state: the reentrancy counter
`mSynchronizeItemLock` and the record of `itemChanged` notifications fired
(lock value at that moment, handler's push decision). -/
structure SyncSt where
  lock : Nat
  fires : List (Nat × Option UndoCmd)
deriving Repr

/-- A tree mutation emits `itemChanged`; the handler runs immediately with
the current lock value and the mutated node. -/
def fire (pol : XccdfPolicy) (st : SyncSt) (t : TreeItem) : SyncSt :=
  { st with fires :=
      st.fires ++ [(st.lock, itemChangedPush pol st.lock t.backing t.checkState)] }

/-- `_syncXCCDFItemChildrenDisabledState` (lines 391-409): flip the disabled
flag of children that differ from the target state and recurse only into
flipped subtrees; each `setDisabled` emits `itemChanged`. -/
def syncChildrenDisabled (pol : XccdfPolicy) :
    SyncSt → List TreeItem → Bool → List TreeItem × SyncSt
  | st, [], _ => ([], st)
  | st, c :: rest, enabled =>
      let childEnabled := !c.disabled
      if !enabled && childEnabled then
        let c1 := c.withDisabled true
        let st1 := fire pol st c1
        let (cs1, st2) := syncChildrenDisabled pol st1 c1.children false
        let (rest1, st3) := syncChildrenDisabled pol st2 rest enabled
        (c1.withChildren cs1 :: rest1, st3)
      else if enabled && !childEnabled then
        let c1 := c.withDisabled false
        let st1 := fire pol st c1
        let (cs1, st2) := syncChildrenDisabled pol st1 c1.children true
        let (rest1, st3) := syncChildrenDisabled pol st2 rest enabled
        (c1.withChildren cs1 :: rest1, st3)
      else
        let (rest1, st1) := syncChildrenDisabled pol st rest enabled
        (c :: rest1, st1)
  termination_by _ l _ => sizeOf l
  decreasing_by
    all_goals simp_wf
    all_goals cases c
    all_goals simp [TreeItem.withDisabled, TreeItem.children]
    all_goals omega

/-- The Value children enumerated by `xccdf_group_get_values` /
`xccdf_benchmark_get_values` (null iterator — no children — for other item
types), in document order. -/
def childValues (it : XccdfItem) : List XccdfItem :=
  match it.ty with
  | .group | .benchmark => it.children.filter (fun c => c.ty == XccdfType.value)
  | _ => []

/-- The Rule/Group children enumerated by `xccdf_group_get_content` /
`xccdf_benchmark_get_content` (null iterator for other item types), in
document order. -/
def childContent (it : XccdfItem) : List XccdfItem :=
  match it.ty with
  | .group | .benchmark => it.children.filter (fun c => c.ty != XccdfType.value)
  | _ => []

/-- `itemsToAdd` (lines 618-658): the Values first, then the Rules/Groups. -/
def itemsToAddOf (it : XccdfItem) : List XccdfItem :=
  childValues it ++ childContent it

theorem sizeOf_lt_of_mem_itemsToAdd {x it : XccdfItem}
    (hx : x ∈ itemsToAddOf it) : sizeOf x < sizeOf it := by
  have hch : sizeOf it.children < sizeOf it := by
    cases it
    simp only [XccdfItem.children, XccdfItem.mk.sizeOf_spec]
    omega
  have hx' : x ∈ it.children := by
    rcases List.mem_append.mp hx with hmem | hmem
    · unfold childValues at hmem
      split at hmem
      all_goals first
        | exact List.mem_of_mem_filter hmem
        | simp at hmem
    · unfold childContent at hmem
      split at hmem
      all_goals first
        | exact List.mem_of_mem_filter hmem
        | simp at hmem
  exact (List.sizeOf_lt_of_mem hx').trans hch

/-- The stale-child deletion loop (lines 660-674): `for (int i = 0; i <
treeItem->childCount(); ++i)` examines the child at index `i`.  A child whose
backing item is absent from `itemsToAdd` is deleted, which shifts the
following child into index `i`; the unconditional `++i` then skips that
child, so it survives unexamined and is not entered into `existingItemsMap`.
A child whose backing item is present is kept and entered into the map.
Returns (surviving children, examined children entered into the map). -/
def deleteStaleChildren (keep : TreeItem → Bool) :
    List TreeItem → List TreeItem × List TreeItem
  | [] => ([], [])
  | c :: rest =>
      if keep c then
        let (surv, ex) := deleteStaleChildren keep rest
        (c :: surv, c :: ex)
      else
        match rest with
        | [] => ([], [])
        | d :: rest' =>
            let (surv, ex) := deleteStaleChildren keep rest'
            (d :: surv, ex)

mutual
/-- `TailoringWindow::synchronizeTreeItem` (lines 561-705): bracket with the
reentrancy lock; copy title/id/backing data into the node; for Rule/Group
mark checkable, set the check state from the policy and re-propagate the
children's disabled state; for Value mark non-checkable; when `recursive`,
compute the ordered child items (Values first, then Rules/Groups, each in
document order — empty for Rule/Value parents, whose child iterators are
null), run the index-incrementing deletion loop over the display children
(deleting a stale child shifts its successor into the current index, which
the loop counter then skips), then walk the
ordered items reusing the matching display child in place or inserting a
freshly created one at the current position, recursively synchronizing each.
Pointer identity on document items is represented by item-id identity. -/
def syncTreeItem (pol : XccdfPolicy) (st : SyncSt) (t : TreeItem)
    (it : XccdfItem) (recursive : Bool) : TreeItem × SyncSt :=
  let st := { st with lock := st.lock + 1 }
  let t := t.withText it.title
  let st := fire pol st t
  let t := (t.withIdText it.id).withBacking (some (refOf it))
  let st := fire pol st t
  let (t, st) :=
    match it.ty with
    | .rule | .group =>
        let t := t.withCheckable true
        let t := t.withCheckState (getXccdfItemInternalSelected pol (refOf it))
        let st := fire pol st t
        let (cs, st) := syncChildrenDisabled pol st t.children t.checkState
        (t.withChildren cs, st)
    | .value =>
        let t := t.withCheckable false
        let st := fire pol st t
        (t, st)
    | .benchmark => (t, st)
  let (t, st) :=
    if recursive then
      let itemsToAdd := itemsToAddOf it
      let pruned := deleteStaleChildren
        (fun c => itemsToAdd.any (fun x => c.backingId == some x.id)) t.children
      let keptIds := pruned.2.filterMap TreeItem.backingId
      let (cs, st) := syncChildList pol it st keptIds 0 pruned.1 itemsToAdd
        (fun x hx => sizeOf_lt_of_mem_itemsToAdd hx)
      (t.withChildren cs, st)
    else (t, st)
  (t, { st with lock := st.lock - 1 })
  termination_by (sizeOf it + 1, 0)
  decreasing_by
    exact Prod.Lex.left _ _ (by omega)

/-- The insertion/reuse loop of `synchronizeTreeItem` (lines 676-701),
threading the loop index `idx`, the current child list and the synchronizer
state through the ordered document items. -/
def syncChildList (pol : XccdfPolicy) (parent : XccdfItem) (st : SyncSt)
    (keptIds : List String) (idx : Nat) (cur : List TreeItem) :
    (items : List XccdfItem) → (∀ x ∈ items, sizeOf x < sizeOf parent) →
    List TreeItem × SyncSt
  | [], _ => (cur, st)
  | x :: rest, h =>
      if keptIds.contains x.id then
        let j := cur.findIdx (fun c => c.backingId == some x.id)
        match cur[j]? with
        | some c =>
            let (c', st') := syncTreeItem pol st c x true
            syncChildList pol parent st' keptIds (idx + 1) (cur.set j c') rest
              (fun y hy => h y (List.mem_cons_of_mem x hy))
        | none =>
            syncChildList pol parent st keptIds (idx + 1) cur rest
              (fun y hy => h y (List.mem_cons_of_mem x hy))
      else
        let (c', st') := syncTreeItem pol st freshTreeItem x true
        syncChildList pol parent st' keptIds (idx + 1) (insertChildAt idx c' cur) rest
          (fun y hy => h y (List.mem_cons_of_mem x hy))
  termination_by items _ => (sizeOf parent, items.length + 1)
  decreasing_by
    all_goals simp_wf
    · have hxb := h x (List.mem_cons_self x _)
      rcases Nat.lt_or_ge (sizeOf x + 1) (sizeOf parent) with hlt | hge
      · exact Prod.Lex.left _ _ hlt
      · have hxe : sizeOf x + 1 = sizeOf parent := by omega
        rw [← hxe]
        exact Prod.Lex.right _ (by omega)
    · exact Prod.Lex.right _ (by omega)
    · exact Prod.Lex.right _ (by omega)
    · have hxb := h x (List.mem_cons_self x _)
      rcases Nat.lt_or_ge (sizeOf x + 1) (sizeOf parent) with hlt | hge
      · exact Prod.Lex.left _ _ hlt
      · have hxe : sizeOf x + 1 = sizeOf parent := by omega
        rw [← hxe]
        exact Prod.Lex.right _ (by omega)
    · exact Prod.Lex.right _ (by omega)
end

/-! ### Reentrancy-lock facts (claim C5) -/

theorem itemChangedPush_pos (pol : XccdfPolicy) (lock : Nat)
    (b : Option BackingRef) (cs : Bool) (h : 0 < lock) :
    itemChangedPush pol lock b cs = none := by
  simp [itemChangedPush, h]

theorem sizeOf_children_lt_tree (c : TreeItem) : sizeOf c.children < sizeOf c := by
  cases c
  simp only [TreeItem.children, TreeItem.mk.sizeOf_spec]
  omega

theorem withDisabled_children (c : TreeItem) (b : Bool) :
    (c.withDisabled b).children = c.children := by
  cases c
  rfl

/-- Every notification fired by `_syncXCCDFItemChildrenDisabledState` happens
at the current lock value and (when the lock is held) decides not to push;
the helper never touches the lock. -/
theorem syncChildrenDisabled_spec (pol : XccdfPolicy) (n : Nat) :
    ∀ (cs : List TreeItem), sizeOf cs < n → ∀ (st : SyncSt) (e : Bool),
    (syncChildrenDisabled pol st cs e).2.lock = st.lock ∧
    ∃ added, (syncChildrenDisabled pol st cs e).2.fires = st.fires ++ added ∧
      ∀ p ∈ added, p.1 = st.lock ∧ (0 < st.lock → p.2 = none) := by
  induction n with
  | zero => intro cs h; omega
  | succ n ih =>
      intro cs hsz st e
      match cs with
      | [] =>
          rw [syncChildrenDisabled]
          exact ⟨rfl, [], by simp, fun p hp => absurd hp (List.not_mem_nil p)⟩
      | c :: rest =>
          have hszc : ∀ b, sizeOf (c.withDisabled b).children < n := by
            intro b
            rw [withDisabled_children]
            have h1 := sizeOf_children_lt_tree c
            simp only [List.cons.sizeOf_spec] at hsz
            omega
          have hszr : sizeOf rest < n := by
            simp only [List.cons.sizeOf_spec] at hsz
            have : 0 < sizeOf c := by
              cases c
              simp only [TreeItem.mk.sizeOf_spec]
              omega
            omega
          rw [syncChildrenDisabled]
          split
          · rcases hrec1 : syncChildrenDisabled pol (fire pol st (c.withDisabled true))
                (c.withDisabled true).children false with ⟨cs1, st2⟩
            rcases hrec2 : syncChildrenDisabled pol st2 rest e with ⟨rest1, st3⟩
            obtain ⟨hl1, a1, hf1, hp1⟩ := ih _ (hszc true) (fire pol st (c.withDisabled true)) false
            obtain ⟨hl2, a2, hf2, hp2⟩ := ih rest hszr st2 e
            rw [hrec1] at hl1 hf1
            rw [hrec2] at hl2 hf2
            simp only [fire] at hl1 hf1 hp1
            rw [hl1] at hl2 hp2
            simp only [hrec1, hrec2]
            refine ⟨by rw [hl2], (st.lock, itemChangedPush pol st.lock
              (c.withDisabled true).backing (c.withDisabled true).checkState) ::
                (a1 ++ a2), ?_, ?_⟩
            · rw [hf2, hf1]
              simp
            · intro p hp
              rcases List.mem_cons.mp hp with rfl | hp'
              · exact ⟨rfl, fun h0 => itemChangedPush_pos pol st.lock _ _ h0⟩
              · rcases List.mem_append.mp hp' with hpa | hpa
                · exact hp1 p hpa
                · exact hp2 p hpa
          · split
            · rcases hrec1 : syncChildrenDisabled pol (fire pol st (c.withDisabled false))
                  (c.withDisabled false).children true with ⟨cs1, st2⟩
              rcases hrec2 : syncChildrenDisabled pol st2 rest e with ⟨rest1, st3⟩
              obtain ⟨hl1, a1, hf1, hp1⟩ :=
                ih _ (hszc false) (fire pol st (c.withDisabled false)) true
              obtain ⟨hl2, a2, hf2, hp2⟩ := ih rest hszr st2 e
              rw [hrec1] at hl1 hf1
              rw [hrec2] at hl2 hf2
              simp only [fire] at hl1 hf1 hp1
              rw [hl1] at hl2 hp2
              simp only [hrec1, hrec2]
              refine ⟨by rw [hl2], (st.lock, itemChangedPush pol st.lock
                (c.withDisabled false).backing (c.withDisabled false).checkState) ::
                  (a1 ++ a2), ?_, ?_⟩
              · rw [hf2, hf1]
                simp
              · intro p hp
                rcases List.mem_cons.mp hp with rfl | hp'
                · exact ⟨rfl, fun h0 => itemChangedPush_pos pol st.lock _ _ h0⟩
                · rcases List.mem_append.mp hp' with hpa | hpa
                  · exact hp1 p hpa
                  · exact hp2 p hpa
            · rcases hrec2 : syncChildrenDisabled pol st rest e with ⟨rest1, st3⟩
              obtain ⟨hl2, a2, hf2, hp2⟩ := ih rest hszr st e
              rw [hrec2] at hl2 hf2
              simp only [hrec2]
              exact ⟨hl2, a2, hf2, hp2⟩

/-- One synchronizer-internal state transition viewed from lock level `base`:
the lock is restored and every notification recorded in between happened with
the lock strictly above `base` and decided not to push. -/
def LockStep (base : Nat) (a b : SyncSt) : Prop :=
  b.lock = a.lock ∧ ∃ added, b.fires = a.fires ++ added ∧
    ∀ p ∈ added, base < p.1 ∧ p.2 = none

theorem LockStep_refl (base : Nat) (a : SyncSt) : LockStep base a a :=
  ⟨rfl, [], by simp, fun p hp => absurd hp (List.not_mem_nil p)⟩

theorem LockStep_trans {base : Nat} {a b c : SyncSt}
    (h1 : LockStep base a b) (h2 : LockStep base b c) : LockStep base a c := by
  obtain ⟨hl1, a1, hf1, hp1⟩ := h1
  obtain ⟨hl2, a2, hf2, hp2⟩ := h2
  refine ⟨hl2.trans hl1, a1 ++ a2, by rw [hf2, hf1, List.append_assoc], ?_⟩
  intro p hp
  rcases List.mem_append.mp hp with h | h
  · exact hp1 p h
  · exact hp2 p h

theorem LockStep_mono {base base' : Nat} {a b : SyncSt} (h : base ≤ base')
    (hs : LockStep base' a b) : LockStep base a b := by
  obtain ⟨hl, ad, hf, hp⟩ := hs
  exact ⟨hl, ad, hf, fun p hpm => ⟨by have := (hp p hpm).1; omega, (hp p hpm).2⟩⟩

theorem LockStep_fire (base : Nat) (pol : XccdfPolicy) (st : SyncSt)
    (t : TreeItem) (h : base < st.lock) : LockStep base st (fire pol st t) := by
  refine ⟨rfl, [(st.lock, itemChangedPush pol st.lock t.backing t.checkState)],
    by simp [fire], ?_⟩
  intro p hp
  rcases List.mem_cons.mp hp with rfl | hp'
  · exact ⟨h, itemChangedPush_pos pol st.lock _ _ (by omega)⟩
  · exact absurd hp' (List.not_mem_nil p)

theorem LockStep_disabled (base : Nat) (pol : XccdfPolicy) (st : SyncSt)
    (cs : List TreeItem) (e : Bool) (h : base < st.lock) :
    LockStep base st (syncChildrenDisabled pol st cs e).2 := by
  obtain ⟨hl, added, hf, hp⟩ :=
    syncChildrenDisabled_spec pol (sizeOf cs + 1) cs (by omega) st e
  refine ⟨hl, added, hf, ?_⟩
  intro p hpm
  obtain ⟨hp1, hp2⟩ := hp p hpm
  exact ⟨by omega, hp2 (by omega)⟩

theorem LockStep_fire2 (base : Nat) (pol : XccdfPolicy) (st : SyncSt)
    (tA tB : TreeItem) (h : base < st.lock) :
    LockStep base st (fire pol (fire pol st tA) tB) :=
  LockStep_trans (LockStep_fire base pol st tA h)
    (LockStep_fire base pol (fire pol st tA) tB h)

theorem LockStep_fire3 (base : Nat) (pol : XccdfPolicy) (st : SyncSt)
    (tA tB tC : TreeItem) (h : base < st.lock) :
    LockStep base st (fire pol (fire pol (fire pol st tA) tB) tC) :=
  LockStep_trans (LockStep_fire2 base pol st tA tB h)
    (LockStep_fire base pol (fire pol (fire pol st tA) tB) tC h)

theorem LockStep_fire3_disabled (base : Nat) (pol : XccdfPolicy) (st : SyncSt)
    (tA tB tC : TreeItem) (cs : List TreeItem) (e : Bool) (h : base < st.lock) :
    LockStep base st
      (syncChildrenDisabled pol (fire pol (fire pol (fire pol st tA) tB) tC) cs e).2 :=
  LockStep_trans (LockStep_fire3 base pol st tA tB tC h)
    (LockStep_disabled base pol (fire pol (fire pol (fire pol st tA) tB) tC) cs e h)

/-- The synchronizer restores the lock and, seen from the caller's lock
level, every notification it causes happens with the lock held higher and
pushes nothing. -/
theorem syncTreeItem_LockStep (pol : XccdfPolicy) (n : Nat) :
    ∀ it : XccdfItem, sizeOf it < n → ∀ (st : SyncSt) (t : TreeItem) (r : Bool),
    LockStep st.lock st (syncTreeItem pol st t it r).2 := by
  induction n with
  | zero => intro it h; omega
  | succ n ihn =>
      intro it hsz st t r
      have listClaim : ∀ (items : List XccdfItem)
          (h : ∀ x ∈ items, sizeOf x < sizeOf it)
          (st' : SyncSt) (keptIds : List String) (idx : Nat) (cur : List TreeItem),
          LockStep st'.lock st'
            (syncChildList pol it st' keptIds idx cur items h).2 := by
        intro items
        induction items with
        | nil =>
            intro h st' keptIds idx cur
            rw [syncChildList]
            exact LockStep_refl _ _
        | cons x rest ihl =>
            intro h st' keptIds idx cur
            have hx : sizeOf x < n := by
              have := h x (List.mem_cons_self x rest)
              omega
            rw [syncChildList]
            split
            · rcases hfind : cur[List.findIdx (fun c => c.backingId == some x.id) cur]?
                with _ | c
              · simp only [hfind]
                exact ihl _ st' keptIds (idx + 1) cur
              · simp only [hfind]
                rcases hsync : syncTreeItem pol st' c x true with ⟨c', st2⟩
                have h1 : LockStep st'.lock st' st2 := by
                  have := ihn x hx st' c true
                  rw [hsync] at this
                  exact this
                have h2 := ihl (fun y hy => h y (List.mem_cons_of_mem x hy))
                  st2 keptIds (idx + 1)
                  (cur.set (List.findIdx (fun c => c.backingId == some x.id) cur) c')
                rw [h1.1] at h2
                exact LockStep_trans h1 h2
            · rcases hsync : syncTreeItem pol st' freshTreeItem x true with ⟨c', st2⟩
              have h1 : LockStep st'.lock st' st2 := by
                have := ihn x hx st' freshTreeItem true
                rw [hsync] at this
                exact this
              have h2 := ihl (fun y hy => h y (List.mem_cons_of_mem x hy))
                st2 keptIds (idx + 1) (insertChildAt idx c' cur)
              rw [h1.1] at h2
              exact LockStep_trans h1 h2
      have hassemble : ∀ stX : SyncSt,
          LockStep st.lock { lock := st.lock + 1, fires := st.fires } stX →
          LockStep st.lock st { lock := stX.lock - 1, fires := stX.fires } := by
        intro stX h
        obtain ⟨hl, ad, hf, hp⟩ := h
        refine ⟨?_, ad, by simpa using hf, hp⟩
        simp only at hl
        simp [hl]
      rw [syncTreeItem]
      split
      rename_i x tMid stMid heq
      have hswitch : LockStep st.lock { lock := st.lock + 1, fires := st.fires } stMid := by
        have hbase1 : st.lock < ({ lock := st.lock + 1, fires := st.fires } : SyncSt).lock := by
          show st.lock < st.lock + 1
          omega
        clear x
        split at heq
        · dsimp only at heq
          cases heq
          exact LockStep_fire3_disabled st.lock pol
            { lock := st.lock + 1, fires := st.fires } _ _ _ _ _ hbase1
        · dsimp only at heq
          cases heq
          exact LockStep_fire3_disabled st.lock pol
            { lock := st.lock + 1, fires := st.fires } _ _ _ _ _ hbase1
        · dsimp only at heq
          cases heq
          exact LockStep_fire3 st.lock pol
            { lock := st.lock + 1, fires := st.fires } _ _ _ hbase1
        · cases heq
          exact LockStep_fire2 st.lock pol
            { lock := st.lock + 1, fires := st.fires } _ _ hbase1
      cases r with
      | false =>
          rw [if_neg (by simp)]
          exact hassemble stMid hswitch
      | true =>
          rw [if_pos rfl]
          dsimp only
          have hstep := listClaim (itemsToAddOf it)
            (fun x hx => sizeOf_lt_of_mem_itemsToAdd hx) stMid
            (List.filterMap TreeItem.backingId
              (deleteStaleChildren (fun c => (itemsToAddOf it).any
                fun x => c.backingId == some x.id) tMid.children).2)
            0
            (deleteStaleChildren (fun c => (itemsToAddOf it).any
              fun x => c.backingId == some x.id) tMid.children).1
          have hle : st.lock ≤ stMid.lock := by
            have := hswitch.1
            simp only at this
            omega
          exact hassemble _ (LockStep_trans hswitch (LockStep_mono hle hstep))

/-! ## Property panels (lines 39-221)

Each panel is modelled as its relevant widget state plus the
`mRefreshInProgress` guard flag.  Setting a widget's text fires its
`textChanged`/`editTextChanged` signal synchronously, which invokes the
connected slot; the slots are modelled as their push decision (`none` when
they return without pushing, `some cmd` when they construct and push `cmd`),
and `refresh()` is modelled as returning the list of those fired decisions. -/

structure ProfilePanel where
  refreshInProgress : Bool
  uiId : String
  uiTitle : String
  uiDescription : String
deriving DecidableEq, Repr

/-- `ProfilePropertiesDockWidget::profileTitleChanged` (lines 83-89): no-op
while refreshing, otherwise pushes a title command capturing the current
title as old value (`setProfileTitleWithUndoCommand`, lines 769-772). -/
def profileTitleChangedPush (p : ProfilePanel) (s : DocState) (newTitle : String) :
    Option UndoCmd :=
  if p.refreshInProgress then none
  else some (.profileTitleChange (getProfileTitle s) newTitle)

/-- `ProfilePropertiesDockWidget::profileDescriptionChanged` (lines 91-97):
no-op while refreshing, otherwise pushes a description command for the
panel's current description text. -/
def profileDescriptionChangedPush (p : ProfilePanel) (s : DocState) :
    Option UndoCmd :=
  if p.refreshInProgress then none
  else some (.profileDescriptionChange (getProfileDescription s) p.uiDescription)

/-- `ProfilePropertiesDockWidget::refresh` (lines 61-81): copy id/title/
description from the model into the widgets, raising the guard flag around
each text mutation; each mutation fires the connected slot.  (The id line
edit has no connected slot, so it fires nothing.) -/
def profilePanelRefresh (s : DocState) (p : ProfilePanel) :
    ProfilePanel × List (Option UndoCmd) :=
  let p0 := if p.uiId != getProfileID s then { p with uiId := getProfileID s } else p
  let step1 : ProfilePanel × List (Option UndoCmd) :=
    if p0.uiTitle != getProfileTitle s then
      let p1 := { p0 with refreshInProgress := true }
      let p2 := { p1 with uiTitle := getProfileTitle s }
      let f := profileTitleChangedPush p2 s (getProfileTitle s)
      ({ p2 with refreshInProgress := false }, [f])
    else (p0, [])
  let step2 : ProfilePanel × List (Option UndoCmd) :=
    if step1.1.uiDescription != getProfileDescription s then
      let p1 := { step1.1 with refreshInProgress := true }
      let p2 := { p1 with uiDescription := getProfileDescription s }
      let f := profileDescriptionChangedPush p2 s
      ({ p2 with refreshInProgress := false }, [f])
    else (step1.1, [])
  (step2.1, step1.2 ++ step2.2)

/-- The selected-item properties panel (`XCCDFItemPropertiesDockWidget`):
the guard flag, the value combo box text, and the current item when it is a
Value item (the only case in which the combo box is populated and its
`editTextChanged` signal is live). -/
structure ItemPanel where
  refreshInProgress : Bool
  uiValueText : String
  xccdfValueItem : Option XccdfValue
deriving DecidableEq, Repr

/-- `XCCDFItemPropertiesDockWidget::valueChanged` (lines 215-221): no-op
while refreshing, otherwise pushes a value command capturing the current
effective value as old value (`setValueValueWithUndoCommand`,
lines 728-731). -/
def valueChangedPush (p : ItemPanel) (s : DocState) (newValue : String) :
    Option UndoCmd :=
  if p.refreshInProgress then none
  else
    match p.xccdfValueItem with
    | some v => some (.valueChange v newValue (getCurrentValueValue s v))
    | none => none

/-- `XCCDFItemPropertiesDockWidget::refresh` (lines 128-213): guarded against
reentry at the top; raises the guard flag for the whole body; clears the combo
text (fires the slot), and for a Value item re-fills it with the current
effective value (fires the slot again). -/
def itemPanelRefresh (s : DocState) (p : ItemPanel) :
    ItemPanel × List (Option UndoCmd) :=
  if p.refreshInProgress then (p, [])
  else
    let p := { p with refreshInProgress := true }
    let p := { p with uiValueText := "" }
    let f1 := valueChangedPush p s ""
    match p.xccdfValueItem with
    | some v =>
        let p := { p with uiValueText := getCurrentValueValue s v }
        let f2 := valueChangedPush p s (getCurrentValueValue s v)
        let p := { p with refreshInProgress := false }
        (p, [f1, f2])
    | none =>
        let p := { p with refreshInProgress := false }
        (p, [f1])

/-! ## Session close (lines 815-858) -/

/-- The window state `closeEvent` reads and writes. -/
structure TWindow where
  doc : DocState
  stack : UndoStack
  changesConfirmed : Bool
  newProfile : Bool
deriving DecidableEq, Repr

/-- `TailoringWindow::closeEvent` (lines 830-858).  `userAccepts` is the
user's answer to the "Discard changes?" prompt (asked only when changes are
unconfirmed).  Result: the window state, whether the window closed, and the
`notifyTailoringFinished(mNewProfile, mChangesConfirmed)` payload delivered to
the parent main window (none when the close was ignored). -/
def closeEvent (w : TWindow) (userAccepts : Bool) :
    Except String (TWindow × Bool × Option (Bool × Bool)) :=
  if !w.changesConfirmed then
    if !userAccepts then
      .ok (w, false, none)
    else do
      let (d', st') ← setIndexZero w.doc w.stack
      let w' : TWindow := { w with doc := d', stack := st' }
      .ok (w', true, some (w'.newProfile, w'.changesConfirmed))
  else
    .ok (w, true, some (w.newProfile, w.changesConfirmed))

/-! ## First facts about the mutators -/

theorem getSelectById_append_self (pol : XccdfPolicy) (sel : XccdfSelect) :
    getSelectById { selects := pol.selects ++ [sel] } sel.item = some sel := by
  simp [getSelectById, List.find?]

theorem setItemSelected_ok (s : DocState) (item : BackingRef) (b : Bool) :
    setItemSelected s item b =
      .ok { profile := { s.profile with
              selects := s.profile.selects ++ [{ item := item.id, selected := b }] }
            policy := { selects := s.policy.selects ++ [{ item := item.id, selected := b }] } } := by
  simp only [setItemSelected, getXccdfItemInternalSelected]
  rw [show ({ selects := s.policy.selects ++ [{ item := item.id, selected := b }] } : XccdfPolicy)
        = { selects := s.policy.selects ++ [({ item := item.id, selected := b } : XccdfSelect)] } from rfl,
      getSelectById_append_self]
  simp

theorem getSelectById_append (ps : List XccdfSelect) (sel : XccdfSelect) (id' : String) :
    getSelectById { selects := ps ++ [sel] } id' =
      if sel.item = id' then some sel else getSelectById { selects := ps } id' := by
  simp only [getSelectById, List.reverse_append, List.reverse_cons, List.reverse_nil,
    List.nil_append, List.cons_append, List.find?]
  by_cases h : sel.item = id'
  · simp [h]
  · simp [h, beq_eq_false_iff_ne.mpr h]

theorem getValueOfItem_append (svs : List XccdfSetValue) (prof : XccdfProfile)
    (sv : XccdfSetValue) (v : XccdfValue) :
    getValueOfItem { prof with setvalues := svs ++ [sv] } v =
      if sv.item = v.id then sv.value
      else getValueOfItem { prof with setvalues := svs } v := by
  simp only [getValueOfItem, List.reverse_append, List.reverse_cons, List.reverse_nil,
    List.nil_append, List.cons_append, List.find?]
  by_cases h : sv.item = v.id
  · simp [h]
  · simp [h, beq_eq_false_iff_ne.mpr h]

theorem setValueValue_ok (s : DocState) (v : XccdfValue) (x : String) :
    setValueValue s v x =
      .ok { s with profile := { s.profile with
              setvalues := s.profile.setvalues ++ [{ item := v.id, value := x }] } } := by
  simp only [setValueValue, getCurrentValueValue, getValueOfItem_append]
  simp

/-! ### The title/description text-edit loop -/

theorem pickEditIdxAux_noDefault (ts : List OscapText) :
    ∀ (best : Option Nat) (i : Nat),
      (∀ t ∈ ts, t.lang ≠ OSCAP_LANG_DEFAULT) →
      pickEditIdxAux best i ts =
        (match best with
         | some b => some b
         | none => if ts.isEmpty then none else some i) := by
  induction ts with
  | nil => intro best i _; cases best <;> simp [pickEditIdxAux]
  | cons t rest ih =>
      intro best i h
      have ht : (t.lang == OSCAP_LANG_DEFAULT) = false :=
        beq_eq_false_iff_ne.mpr (h t (List.mem_cons_self t rest))
      have hrest : ∀ t' ∈ rest, t'.lang ≠ OSCAP_LANG_DEFAULT :=
        fun t' ht' => h t' (List.mem_cons_of_mem t ht')
      cases best with
      | some b => simp [pickEditIdxAux, ht, ih (some b) (i + 1) hrest]
      | none => simp [pickEditIdxAux, ht, ih (some i) (i + 1) hrest]

theorem pickEditIdxAux_default (ts : List OscapText) :
    ∀ (best : Option Nat) (i : Nat),
      (∃ t ∈ ts, t.lang = OSCAP_LANG_DEFAULT) →
      ∃ k, ∃ hk : k < ts.length,
        (ts.get ⟨k, hk⟩).lang = OSCAP_LANG_DEFAULT ∧
        pickEditIdxAux best i ts = some (i + k) := by
  induction ts with
  | nil => intro _ _ h; simp at h
  | cons t rest ih =>
      intro best i h
      by_cases hrest : ∃ t' ∈ rest, t'.lang = OSCAP_LANG_DEFAULT
      · obtain ⟨k, hk, hlang, heq⟩ :=
          ih (if best.isNone || t.lang == OSCAP_LANG_DEFAULT then some i else best)
            (i + 1) hrest
        refine ⟨k + 1, by simpa using Nat.succ_lt_succ hk, ?_, ?_⟩
        · simpa using hlang
        · simp only [pickEditIdxAux, heq]
          congr 1
          omega
      · have hthis : t.lang = OSCAP_LANG_DEFAULT := by
          rcases h with ⟨t', ht', hl⟩
          rcases List.mem_cons.mp ht' with rfl | hmem
          · exact hl
          · exact absurd ⟨t', hmem, hl⟩ hrest
        have hrest' : ∀ t' ∈ rest, t'.lang ≠ OSCAP_LANG_DEFAULT := by
          intro t' ht' hl; exact hrest ⟨t', ht', hl⟩
        refine ⟨0, by simp, by simpa using hthis, ?_⟩
        simp only [pickEditIdxAux, hthis]
        rw [pickEditIdxAux_noDefault rest _ _ hrest']
        simp

/-- In a text block whose entries before position `k` are not tagged with the
default language, after overwriting position `k` with a default-language
entry the preferred text is that entry's text. -/
theorem find?_set_default (ts : List OscapText) :
    ∀ (k : Nat), k < ts.length → ∀ (txt : String),
      (∀ (i : Nat) (h : i < ts.length), i < k →
        (ts.get ⟨i, h⟩).lang ≠ OSCAP_LANG_DEFAULT) →
      (ts.set k ⟨OSCAP_LANG_DEFAULT, txt⟩).find?
          (fun t => t.lang == OSCAP_LANG_DEFAULT) =
        some ⟨OSCAP_LANG_DEFAULT, txt⟩ := by
  induction ts with
  | nil => intro k hk; simp at hk
  | cons t rest ih =>
      intro k hk txt hpre
      cases k with
      | zero => simp [List.find?]
      | succ m =>
          have ht : (t.lang == OSCAP_LANG_DEFAULT) = false :=
            beq_eq_false_iff_ne.mpr (by
              have := hpre 0 (by simp) (Nat.succ_pos m)
              simpa using this)
          simp only [List.set, List.find?, ht]
          exact ih m (by simpa using Nat.lt_of_succ_lt_succ hk) txt
            (fun i h hik => by
              have := hpre (i + 1) (by simpa using Nat.succ_lt_succ h)
                (Nat.succ_lt_succ hik)
              simpa using this)

theorem preferredText_set (ts : List OscapText) (k : Nat) (hk : k < ts.length)
    (txt : String)
    (hpre : ∀ (i : Nat) (h : i < ts.length), i < k →
      (ts.get ⟨i, h⟩).lang ≠ OSCAP_LANG_DEFAULT) :
    preferredText (ts.set k ⟨OSCAP_LANG_DEFAULT, txt⟩) = txt := by
  simp [preferredText, find?_set_default ts k hk txt hpre]

theorem NoTwoDefaults_iff (ts : List OscapText) :
    NoTwoDefaults ts ↔
      ∀ (i j : Nat) (hi : i < ts.length) (hj : j < ts.length), i < j →
        (ts.get ⟨i, hi⟩).lang = OSCAP_LANG_DEFAULT →
        (ts.get ⟨j, hj⟩).lang = OSCAP_LANG_DEFAULT → False := by
  rw [NoTwoDefaults, List.pairwise_iff_getElem]
  constructor
  · intro h i j hi hj hij hdi hdj
    exact h i j hi hj hij (by simpa using hdi) (by simpa using hdj)
  · intro h i j hi hj hij hdi hdj
    exact h i j hi hj hij (by simpa using hdi) (by simpa using hdj)

theorem NoTwoDefaults_set (ts : List OscapText) (k : Nat) (txt : String)
    (hk : ∀ (i : Nat) (h : i < ts.length), i ≠ k →
      (ts.get ⟨i, h⟩).lang ≠ OSCAP_LANG_DEFAULT) :
    NoTwoDefaults (ts.set k ⟨OSCAP_LANG_DEFAULT, txt⟩) := by
  rw [NoTwoDefaults_iff]
  intro i j hi hj hij hdi hdj
  have hi' : i < ts.length := by simpa using hi
  have hj' : j < ts.length := by simpa using hj
  by_cases hik : i = k
  · have hjk : j ≠ k := by omega
    have hget : (ts.set k ⟨OSCAP_LANG_DEFAULT, txt⟩).get ⟨j, hj⟩ = ts.get ⟨j, hj'⟩ := by
      simp [List.get_eq_getElem, List.getElem_set_ne (Ne.symm hjk)]
    rw [hget] at hdj
    exact hk j hj' hjk hdj
  · have hget : (ts.set k ⟨OSCAP_LANG_DEFAULT, txt⟩).get ⟨i, hi⟩ = ts.get ⟨i, hi'⟩ := by
      simp [List.get_eq_getElem, List.getElem_set_ne (Ne.symm hik)]
    rw [hget] at hdi
    exact hk i hi' hik hdi

/-- Full characterization of one in-place text edit on a well-formed,
nonempty text block: it succeeds, overwrites position `k` with the new
default-language text, keeps the block well-formed, makes the preferred text
the new text, and `k` is a default-language position when one exists, else
0. -/
theorem editOscapText_spec (ts : List OscapText) (txt : String)
    (hwf : NoTwoDefaults ts) (hne : ts ≠ []) :
    ∃ k, ∃ hk : k < ts.length,
      editOscapTextList ts txt = .ok (ts.set k ⟨OSCAP_LANG_DEFAULT, txt⟩) ∧
      preferredText (ts.set k ⟨OSCAP_LANG_DEFAULT, txt⟩) = txt ∧
      NoTwoDefaults (ts.set k ⟨OSCAP_LANG_DEFAULT, txt⟩) ∧
      ((∃ t ∈ ts, t.lang = OSCAP_LANG_DEFAULT) →
        (ts.get ⟨k, hk⟩).lang = OSCAP_LANG_DEFAULT) ∧
      ((∀ t ∈ ts, t.lang ≠ OSCAP_LANG_DEFAULT) → k = 0) := by
  by_cases hd : ∃ t ∈ ts, t.lang = OSCAP_LANG_DEFAULT
  · obtain ⟨k, hk, hlang, heq⟩ := pickEditIdxAux_default ts none 0 hd
    have hpre : ∀ (i : Nat) (h : i < ts.length), i < k →
        (ts.get ⟨i, h⟩).lang ≠ OSCAP_LANG_DEFAULT := by
      intro i h hik hdi
      exact (NoTwoDefaults_iff ts).mp hwf i k h hk hik hdi hlang
    refine ⟨k, hk, ?_, preferredText_set ts k hk txt hpre, ?_, fun _ => hlang, ?_⟩
    · simp [editOscapTextList, pickEditIdx, heq]
    · refine NoTwoDefaults_set ts k txt ?_
      intro i h hik hdi
      rcases Nat.lt_or_ge i k with hlt | hge
      · exact hpre i h hlt hdi
      · exact (NoTwoDefaults_iff ts).mp hwf k i hk h (by omega) hlang hdi
    · intro hnone
      rcases hd with ⟨t, ht, hl⟩
      exact absurd hl (hnone t ht)
  · push_neg at hd
    have h0 : (0 : Nat) < ts.length := List.length_pos.mpr hne
    have heq : pickEditIdx ts = some 0 := by
      rw [pickEditIdx, pickEditIdxAux_noDefault ts none 0 hd]
      simp [List.isEmpty_iff, hne]
    refine ⟨0, h0, ?_, preferredText_set ts 0 h0 txt (by omega), ?_,
      fun hex => absurd hex (by push_neg; exact hd), fun _ => rfl⟩
    · simp [editOscapTextList, heq]
    · refine NoTwoDefaults_set ts 0 txt ?_
      intro i h _ hdi
      exact hd _ (List.get_mem ts i h) hdi

/-- `setProfileTitle` on a well-formed, nonempty title block: succeeds, edits
the title block in place (equal length), the new preferred title is the given
one, well-formedness is preserved, and no other component of the document
state changes. -/
theorem setProfileTitle_ok_spec (s : DocState) (txt : String)
    (hwf : NoTwoDefaults s.profile.titles) (hne : s.profile.titles ≠ []) :
    ∃ ts', setProfileTitle s txt =
        .ok { s with profile := { s.profile with titles := ts' } } ∧
      ts'.length = s.profile.titles.length ∧ preferredText ts' = txt ∧
      NoTwoDefaults ts' := by
  obtain ⟨k, hk, heq, hpref, hwf', _, _⟩ := editOscapText_spec s.profile.titles txt hwf hne
  refine ⟨s.profile.titles.set k ⟨OSCAP_LANG_DEFAULT, txt⟩, ?_, by simp, hpref, hwf'⟩
  simp [setProfileTitle, heq, Bind.bind, Except.bind, getProfileTitle, hpref]

/-- `setProfileDescription` analogue of `setProfileTitle_ok_spec`. -/
theorem setProfileDescription_ok_spec (s : DocState) (txt : String)
    (hwf : NoTwoDefaults s.profile.descriptions)
    (hne : s.profile.descriptions ≠ []) :
    ∃ ts', setProfileDescription s txt =
        .ok { s with profile := { s.profile with descriptions := ts' } } ∧
      ts'.length = s.profile.descriptions.length ∧ preferredText ts' = txt ∧
      NoTwoDefaults ts' := by
  obtain ⟨k, hk, heq, hpref, hwf', _, _⟩ :=
    editOscapText_spec s.profile.descriptions txt hwf hne
  refine ⟨s.profile.descriptions.set k ⟨OSCAP_LANG_DEFAULT, txt⟩, ?_, by simp, hpref, hwf'⟩
  simp [setProfileDescription, heq, Bind.bind, Except.bind, getProfileDescription, hpref]

theorem setProfileTitle_empty (s : DocState) (txt : String)
    (h : s.profile.titles = []) :
    setProfileTitle s txt =
      .error "Not suitable oscap_text found that we could edit." := by
  simp [setProfileTitle, editOscapTextList, pickEditIdx, h, pickEditIdxAux,
    Bind.bind, Except.bind]

theorem setProfileDescription_empty (s : DocState) (txt : String)
    (h : s.profile.descriptions = []) :
    setProfileDescription s txt =
      .error "Not suitable oscap_text found that we could edit." := by
  simp [setProfileDescription, editOscapTextList, pickEditIdx, h, pickEditIdxAux,
    Bind.bind, Except.bind]

/-! ### Round-trip machinery (claim C1)

The external (observable) state the round-trip property talks about is the
effective selection of every benchmark item, the effective value of every
value item, and the profile title and description.  The benchmark document is
represented by the lists of its items and value items; XCCDF requires item
ids to be unique, which is the `Nodup` hypothesis below. -/

def WfState (s : DocState) : Prop :=
  NoTwoDefaults s.profile.titles ∧ NoTwoDefaults s.profile.descriptions

instance (s : DocState) : Decidable (WfState s) := by
  unfold WfState; infer_instance

/-- Equality of the observable document state over a fixed benchmark. -/
def ObsEqOn (items : List BackingRef) (vals : List XccdfValue)
    (s t : DocState) : Prop :=
  (∀ it ∈ items,
    getXccdfItemInternalSelected s.policy it =
      getXccdfItemInternalSelected t.policy it) ∧
  (∀ v ∈ vals, getCurrentValueValue s v = getCurrentValueValue t v) ∧
  getProfileTitle s = getProfileTitle t ∧
  getProfileDescription s = getProfileDescription t

/-- An event references only items of the fixed benchmark. -/
def EventOk (items : List BackingRef) (vals : List XccdfValue) :
    EditEvent → Prop
  | .setCheck item _ => item ∈ items
  | .editValue v _ => v ∈ vals
  | .editTitle _ => True
  | .editDescription _ => True

def TextsLenEq (s t : DocState) : Prop :=
  s.profile.titles.length = t.profile.titles.length ∧
  s.profile.descriptions.length = t.profile.descriptions.length

/-- The congruence relation threaded through the undo chain: both states are
well-formed, their text blocks have the same shape, and they agree
observably. -/
def RelStates (items : List BackingRef) (vals : List XccdfValue)
    (s t : DocState) : Prop :=
  WfState s ∧ WfState t ∧ TextsLenEq s t ∧ ObsEqOn items vals s t

theorem ObsEqOn_trans {items vals} {a b c : DocState}
    (h1 : ObsEqOn items vals a b) (h2 : ObsEqOn items vals b c) :
    ObsEqOn items vals a c := by
  obtain ⟨h1s, h1v, h1t, h1d⟩ := h1
  obtain ⟨h2s, h2v, h2t, h2d⟩ := h2
  exact ⟨fun it hit => (h1s it hit).trans (h2s it hit),
    fun v hv => (h1v v hv).trans (h2v v hv), h1t.trans h2t, h1d.trans h2d⟩

theorem TextsLenEq_trans {a b c : DocState}
    (h1 : TextsLenEq a b) (h2 : TextsLenEq b c) : TextsLenEq a c :=
  ⟨h1.1.trans h2.1, h1.2.trans h2.2⟩

/-- The invariant maintained while the user edits: the stack position is at
the end of the history, and undoing everything succeeds and lands in a state
observably equal to the initial one. -/
def RTInv (items : List BackingRef) (vals : List XccdfValue)
    (s0 s : DocState) (st : UndoStack) : Prop :=
  WfState s ∧ TextsLenEq s s0 ∧ st.index = st.cmds.length ∧
  ∃ sfin, undoN st.index s st = .ok (sfin, ⟨st.cmds, 0⟩) ∧
    WfState sfin ∧ TextsLenEq sfin s0 ∧ ObsEqOn items vals sfin s0

/-! ### Stack plumbing lemmas -/

theorem undoN_index_zero (n : Nat) : ∀ (s : DocState) (st : UndoStack),
    st.index = 0 → undoN n s st = .ok (s, st) := by
  induction n with
  | zero => intro s st _; rfl
  | succ n ih =>
      intro s st h
      have hstep : undoStep s st = .ok (s, st) := by
        unfold undoStep
        split
        · rfl
        · rename_i m hm; omega
      simp only [undoN, Bind.bind, Except.bind, hstep]
      exact ih s st h

theorem undoN_add (a b : Nat) : ∀ (s : DocState) (st : UndoStack),
    undoN (a + b) s st =
      match undoN a s st with
      | .ok p => undoN b p.1 p.2
      | .error e => .error e := by
  induction a with
  | zero =>
      intro s st
      simp only [Nat.zero_add, undoN]
  | succ a ih =>
      intro s st
      have : a + 1 + b = (a + b) + 1 := by omega
      rw [this]
      simp only [undoN, Bind.bind, Except.bind]
      cases hstep : undoStep s st with
      | error e => rfl
      | ok p => exact ih p.1 p.2

theorem undoStep_none (s : DocState) (cmds : List UndoCmd) (n : Nat)
    (h : cmds[n]? = none) : undoStep s ⟨cmds, n + 1⟩ = .ok (s, ⟨cmds, n⟩) := by
  unfold undoStep; simp [h]

theorem undoStep_some_ok (s : DocState) (cmds : List UndoCmd) (n : Nat)
    (c : UndoCmd) (s1 : DocState) (h : cmds[n]? = some c)
    (hu : c.undoOn s = .ok s1) :
    undoStep s ⟨cmds, n + 1⟩ = .ok (s1, ⟨cmds, n⟩) := by
  unfold undoStep; simp [h, hu, Bind.bind, Except.bind]

theorem undoStep_some_err (s : DocState) (cmds : List UndoCmd) (n : Nat)
    (c : UndoCmd) (e : String) (h : cmds[n]? = some c)
    (hu : c.undoOn s = .error e) :
    undoStep s ⟨cmds, n + 1⟩ = .error e := by
  unfold undoStep; simp [h, hu, Bind.bind, Except.bind]

theorem undoN_succ (n : Nat) (s : DocState) (st : UndoStack) :
    undoN (n + 1) s st =
      match undoStep s st with
      | .ok p => undoN n p.1 p.2
      | .error e => .error e := by
  simp only [undoN, Bind.bind, Except.bind]
  cases undoStep s st <;> rfl

/-- The result of undoing `n` commands from position `n` depends only on the
first `n` commands of the stack. -/
theorem undoN_cmds_congr (n : Nat) : ∀ (a : DocState) (c1 c2 : List UndoCmd),
    c1.take n = c2.take n →
    ∀ x st1, undoN n a ⟨c1, n⟩ = .ok (x, st1) →
      undoN n a ⟨c2, n⟩ = .ok (x, ⟨c2, 0⟩) := by
  induction n with
  | zero =>
      intro a c1 c2 _ x st1 h
      simp only [undoN] at h ⊢
      cases h
      rfl
  | succ n ih =>
      intro a c1 c2 htake x st1 h
      have hget : c1[n]? = c2[n]? := by
        have h1 : (c1.take (n + 1))[n]? = c1[n]? :=
          List.getElem?_take_of_lt (Nat.lt_succ_self n)
        have h2 : (c2.take (n + 1))[n]? = c2[n]? :=
          List.getElem?_take_of_lt (Nat.lt_succ_self n)
        rw [← h1, ← h2, htake]
      have htake' : c1.take n = c2.take n := by
        have := congrArg (List.take n) htake
        simpa [List.take_take, Nat.min_comm] using this
      rw [undoN_succ] at h ⊢
      cases hc : c1[n]? with
      | none =>
          rw [undoStep_none a c1 n hc] at h
          rw [undoStep_none a c2 n (by rw [← hget]; exact hc)]
          exact ih a c1 c2 htake' x st1 h
      | some c =>
          cases hu : c.undoOn a with
          | error e =>
              rw [undoStep_some_err a c1 n c e hc hu] at h
              cases h
          | ok a1 =>
              rw [undoStep_some_ok a c1 n c a1 hc hu] at h
              rw [undoStep_some_ok a c2 n c a1 (by rw [← hget]; exact hc) hu]
              exact ih a1 c1 c2 htake' x st1 h

/-! ### Effect lemmas and undo congruence -/

theorem getInternal_after_append (ps : List XccdfSelect) (selItem : String)
    (b : Bool) (it : BackingRef) :
    getXccdfItemInternalSelected { selects := ps ++ [{ item := selItem, selected := b }] } it =
      if selItem = it.id then b
      else getXccdfItemInternalSelected { selects := ps } it := by
  simp only [getXccdfItemInternalSelected, getSelectById_append]
  by_cases h : selItem = it.id <;> simp [h]

theorem bool_eq_not_of_ne {a b : Bool} (h : a ≠ b) : b = !a := by
  cases a <;> cases b <;> simp_all

theorem getInternal_eta (pol : XccdfPolicy) (it : BackingRef) :
    getXccdfItemInternalSelected { selects := pol.selects } it =
      getXccdfItemInternalSelected pol it := rfl

theorem getValueOfItem_eta (prof : XccdfProfile) (v : XccdfValue) :
    getValueOfItem { prof with setvalues := prof.setvalues } v =
      getValueOfItem prof v := rfl

theorem mergeWith_selectToggle_none (cur : UndoCmd) (i : BackingRef) (b : Bool) :
    cur.mergeWith (.selectToggle i b) = none := by
  cases cur <;> rfl

theorem eq_of_mem_of_ref_id_eq {l : List BackingRef}
    (h : (l.map BackingRef.id).Nodup) {x y : BackingRef}
    (hx : x ∈ l) (hy : y ∈ l) (heq : x.id = y.id) : x = y :=
  List.inj_on_of_nodup_map h hx hy heq

theorem eq_of_mem_of_val_id_eq {l : List XccdfValue}
    (h : (l.map XccdfValue.id).Nodup) {x y : XccdfValue}
    (hx : x ∈ l) (hy : y ∈ l) (heq : x.id = y.id) : x = y :=
  List.inj_on_of_nodup_map h hx hy heq

/-- Undoing one command preserves the congruence relation: from related
states, the same undo either succeeds on both (with related results) — and
success on the reference side forces success on the other. -/
theorem undoOn_congr (items : List BackingRef) (vals : List XccdfValue)
    (c : UndoCmd) (a b : DocState) (hrel : RelStates items vals a b)
    (b' : DocState) (hb : c.undoOn b = .ok b') :
    ∃ a', c.undoOn a = .ok a' ∧ RelStates items vals a' b' := by
  obtain ⟨⟨hwtA, hwdA⟩, ⟨hwtB, hwdB⟩, ⟨hltAB, hldAB⟩, hselAB, hvalAB, htAB, hdAB⟩ := hrel
  cases c with
  | selectToggle item nb =>
      rw [UndoCmd.undoOn, setItemSelected_ok b item (!nb)] at hb
      injection hb with hb
      subst hb
      refine ⟨_, by rw [UndoCmd.undoOn]; exact setItemSelected_ok a item (!nb), ?_⟩
      refine ⟨⟨hwtA, hwdA⟩, ⟨hwtB, hwdB⟩, ⟨hltAB, hldAB⟩, ?_, hvalAB, htAB, hdAB⟩
      intro it hit
      show getXccdfItemInternalSelected
          { selects := a.policy.selects ++ [{ item := item.id, selected := !nb }] } it =
        getXccdfItemInternalSelected
          { selects := b.policy.selects ++ [{ item := item.id, selected := !nb }] } it
      rw [getInternal_after_append, getInternal_after_append]
      by_cases h : item.id = it.id <;> simp [h, getInternal_eta, hselAB it hit]
  | valueChange v nv ov =>
      rw [UndoCmd.undoOn, setValueValue_ok b v ov] at hb
      injection hb with hb
      subst hb
      refine ⟨_, by rw [UndoCmd.undoOn]; exact setValueValue_ok a v ov, ?_⟩
      refine ⟨⟨hwtA, hwdA⟩, ⟨hwtB, hwdB⟩, ⟨hltAB, hldAB⟩, hselAB, ?_, htAB, hdAB⟩
      intro v' hv'
      show getValueOfItem
          { a.profile with setvalues :=
              a.profile.setvalues ++ [{ item := v.id, value := ov }] } v' =
        getValueOfItem
          { b.profile with setvalues :=
              b.profile.setvalues ++ [{ item := v.id, value := ov }] } v'
      rw [getValueOfItem_append, getValueOfItem_append]
      by_cases h : v.id = v'.id
      · simp [h]
      · simp only [if_neg h, getValueOfItem_eta]
        exact hvalAB v' hv'
  | profileTitleChange ot nt =>
      rw [UndoCmd.undoOn] at hb ⊢
      have hbne : b.profile.titles ≠ [] := by
        intro hemp
        rw [setProfileTitle_empty b ot hemp] at hb
        cases hb
      have hane : a.profile.titles ≠ [] := by
        intro hemp
        apply hbne
        apply List.eq_nil_of_length_eq_zero
        rw [← hltAB, hemp]
        rfl
      obtain ⟨tsA, haeq, hlenA, hprefA, hwfA'⟩ := setProfileTitle_ok_spec a ot hwtA hane
      obtain ⟨tsB, hbeq, hlenB, hprefB, hwfB'⟩ := setProfileTitle_ok_spec b ot hwtB hbne
      rw [hbeq] at hb
      injection hb with hb
      subst hb
      refine ⟨_, haeq, ⟨⟨hwfA', hwdA⟩, ⟨hwfB', hwdB⟩,
        ⟨by simp [hlenA, hlenB, hltAB], hldAB⟩, hselAB, hvalAB, ?_, hdAB⟩⟩
      show preferredText tsA = preferredText tsB
      rw [hprefA, hprefB]
  | profileDescriptionChange od nd =>
      rw [UndoCmd.undoOn] at hb ⊢
      have hbne : b.profile.descriptions ≠ [] := by
        intro hemp
        rw [setProfileDescription_empty b od hemp] at hb
        cases hb
      have hane : a.profile.descriptions ≠ [] := by
        intro hemp
        apply hbne
        apply List.eq_nil_of_length_eq_zero
        rw [← hldAB, hemp]
        rfl
      obtain ⟨tsA, haeq, hlenA, hprefA, hwfA'⟩ := setProfileDescription_ok_spec a od hwdA hane
      obtain ⟨tsB, hbeq, hlenB, hprefB, hwfB'⟩ := setProfileDescription_ok_spec b od hwdB hbne
      rw [hbeq] at hb
      injection hb with hb
      subst hb
      refine ⟨_, haeq, ⟨⟨hwtA, hwfA'⟩, ⟨hwtB, hwfB'⟩,
        ⟨hltAB, by simp [hlenA, hlenB, hldAB]⟩, hselAB, hvalAB, htAB, ?_⟩⟩
      show preferredText tsA = preferredText tsB
      rw [hprefA, hprefB]

/-- Chain congruence: related start states run the same undo suffix to
related results. -/
theorem undoN_congr (items : List BackingRef) (vals : List XccdfValue)
    (n : Nat) : ∀ (cmds : List UndoCmd) (a b : DocState),
    RelStates items vals a b →
    ∀ bfin st', undoN n b ⟨cmds, n⟩ = .ok (bfin, st') →
    ∃ afin, undoN n a ⟨cmds, n⟩ = .ok (afin, ⟨cmds, 0⟩) ∧
      RelStates items vals afin bfin := by
  induction n with
  | zero =>
      intro cmds a b hrel bfin st' h
      simp only [undoN] at h ⊢
      cases h
      exact ⟨a, rfl, hrel⟩
  | succ n ih =>
      intro cmds a b hrel bfin st' h
      rw [undoN_succ] at h ⊢
      cases hc : cmds[n]? with
      | none =>
          rw [undoStep_none b cmds n hc] at h
          rw [undoStep_none a cmds n hc]
          exact ih cmds a b hrel bfin st' h
      | some c =>
          cases hu : c.undoOn b with
          | error e =>
              rw [undoStep_some_err b cmds n c e hc hu] at h
              cases h
          | ok b1 =>
              rw [undoStep_some_ok b cmds n c b1 hc hu] at h
              obtain ⟨a1, hu', hrel1⟩ := undoOn_congr items vals c a b hrel b1 hu
              rw [undoStep_some_ok a cmds n c a1 hc hu']
              exact ih cmds a1 b1 hrel1 bfin st' h

/-- States with the same policy, the same set-value list, and observably equal
text blocks (of the same shapes) are related. -/
theorem RelStates_of_fields (items : List BackingRef) (vals : List XccdfValue)
    (a b : DocState) (hwa : WfState a) (hwb : WfState b)
    (hsel : a.policy = b.policy)
    (hsv : a.profile.setvalues = b.profile.setvalues)
    (ht : preferredText a.profile.titles = preferredText b.profile.titles)
    (hd : preferredText a.profile.descriptions = preferredText b.profile.descriptions)
    (hlt : a.profile.titles.length = b.profile.titles.length)
    (hld : a.profile.descriptions.length = b.profile.descriptions.length) :
    RelStates items vals a b := by
  refine ⟨hwa, hwb, ⟨hlt, hld⟩, ?_, ?_, ht, hd⟩
  · intro it _
    rw [hsel]
  · intro v _
    show getValueOfItem a.profile v = getValueOfItem b.profile v
    unfold getValueOfItem
    rw [hsv]

/-- Undoing a freshly pushed select command restores the observable state:
the redo appended `(id, check)` with `check` differing from the prior
effective selection, so the undo's `(id, !check)` override re-establishes
it. -/
theorem rel_select_roundtrip (items : List BackingRef) (vals : List XccdfValue)
    (hids : (items.map BackingRef.id).Nodup)
    (s : DocState) (item : BackingRef) (check : Bool)
    (hitem : item ∈ items) (hwf : WfState s)
    (hne : check ≠ getXccdfItemInternalSelected s.policy item)
    (sA sB : DocState)
    (hA : setItemSelected s item check = .ok sA)
    (hB : setItemSelected sA item (!check) = .ok sB) :
    RelStates items vals sB s := by
  rw [setItemSelected_ok] at hA hB
  injection hA with hA
  subst hA
  injection hB with hB
  subst hB
  refine ⟨⟨hwf.1, hwf.2⟩, hwf, ⟨rfl, rfl⟩, ?_, fun v _ => rfl, rfl, rfl⟩
  intro it hit
  show getXccdfItemInternalSelected
      { selects := (s.policy.selects ++ [{ item := item.id, selected := check }]) ++
          [{ item := item.id, selected := !check }] } it =
    getXccdfItemInternalSelected s.policy it
  rw [getInternal_after_append, getInternal_after_append]
  by_cases h : item.id = it.id
  · have : item = it := eq_of_mem_of_ref_id_eq hids hitem hit h
    subst this
    simp [bool_eq_not_of_ne hne]
  · simp [h, getInternal_eta]

/-- Undoing a freshly pushed value command restores the observable state:
the undo appends a set-value override carrying the effective value captured
before the redo. -/
theorem rel_value_roundtrip (items : List BackingRef) (vals : List XccdfValue)
    (hvds : (vals.map XccdfValue.id).Nodup)
    (s : DocState) (v : XccdfValue) (nv : String)
    (hv : v ∈ vals) (hwf : WfState s)
    (sA sB : DocState)
    (hA : setValueValue s v nv = .ok sA)
    (hB : setValueValue sA v (getCurrentValueValue s v) = .ok sB) :
    RelStates items vals sB s := by
  rw [setValueValue_ok] at hA hB
  injection hA with hA
  subst hA
  injection hB with hB
  subst hB
  refine ⟨⟨hwf.1, hwf.2⟩, hwf, ⟨rfl, rfl⟩, fun it _ => rfl, ?_, rfl, rfl⟩
  intro v' hv'
  show getValueOfItem
      { s.profile with setvalues :=
          (s.profile.setvalues ++ [{ item := v.id, value := nv }]) ++
            [{ item := v.id, value := getCurrentValueValue s v }] } v' =
    getValueOfItem s.profile v'
  rw [getValueOfItem_append, getValueOfItem_append]
  by_cases h : v.id = v'.id
  · have : v = v' := eq_of_mem_of_val_id_eq hvds hv hv' h
    subst this
    simp [getCurrentValueValue]
  · simp [h, getValueOfItem_eta]

/-- Undoing a merged value entry from the post-merge state relates to undoing
the old top entry from the pre-push state: both append the same old value. -/
theorem rel_value_merge (items : List BackingRef) (vals : List XccdfValue)
    (s : DocState) (vc : XccdfValue) (nv oc : String) (hwf : WfState s)
    (sA sB s1 : DocState)
    (hA : setValueValue s vc nv = .ok sA)
    (hB : setValueValue sA vc oc = .ok sB)
    (h1 : setValueValue s vc oc = .ok s1) :
    RelStates items vals sB s1 := by
  rw [setValueValue_ok] at hA hB h1
  injection hA with hA
  subst hA
  injection hB with hB
  subst hB
  injection h1 with h1
  subst h1
  refine ⟨⟨hwf.1, hwf.2⟩, ⟨hwf.1, hwf.2⟩, ⟨rfl, rfl⟩, fun it _ => rfl, ?_, rfl, rfl⟩
  intro v' hv'
  show getValueOfItem
      { s.profile with setvalues :=
          (s.profile.setvalues ++ [{ item := vc.id, value := nv }]) ++
            [{ item := vc.id, value := oc }] } v' =
    getValueOfItem
      { s.profile with setvalues :=
          s.profile.setvalues ++ [{ item := vc.id, value := oc }] } v'
  rw [getValueOfItem_append, getValueOfItem_append, getValueOfItem_append]
  by_cases h : vc.id = v'.id
  · simp [h]
  · simp [h, getValueOfItem_eta]

/-- Pushing a fresh (unmerged) command whose undo leads back, observably, to
the pre-push state preserves the round-trip invariant. -/
theorem RTInv_append (items : List BackingRef) (vals : List XccdfValue)
    (s0 s : DocState) (st : UndoStack) (c : UndoCmd) (sA sB : DocState)
    (hinv : RTInv items vals s0 s st)
    (hundo : c.undoOn sA = .ok sB)
    (hrel : RelStates items vals sB s)
    (hwfA : WfState sA) (hlenA : TextsLenEq sA s0) :
    RTInv items vals s0 sA ⟨st.cmds ++ [c], st.index + 1⟩ := by
  obtain ⟨hwfs, hlens, hidx, sfin, hchain, hwff, hlenf, hobs⟩ := hinv
  refine ⟨hwfA, hlenA, by simp [hidx], ?_⟩
  have hget : (st.cmds ++ [c])[st.index]? = some c := by
    rw [hidx]; exact List.getElem?_concat_length st.cmds c
  obtain ⟨afin, hchainA, hrelf⟩ :=
    undoN_congr items vals st.index st.cmds sB s hrel sfin ⟨st.cmds, 0⟩ hchain
  have htake : st.cmds.take st.index = (st.cmds ++ [c]).take st.index := by
    rw [hidx, List.take_length, List.take_left]
  have hchainA' :=
    undoN_cmds_congr st.index sB st.cmds (st.cmds ++ [c]) htake afin _ hchainA
  refine ⟨afin, ?_, hrelf.1, TextsLenEq_trans hrelf.2.2.1 hlenf,
    ObsEqOn_trans hrelf.2.2.2 hobs⟩
  rw [undoN_succ, undoStep_some_ok sA (st.cmds ++ [c]) st.index c sB hget hundo]
  exact hchainA'

/-- Merging a command into the top history entry, when undoing the merged
entry relates to undoing the old top entry, preserves the round-trip
invariant. -/
theorem RTInv_merge (items : List BackingRef) (vals : List XccdfValue)
    (s0 s : DocState) (cmds0 : List UndoCmd) (idx0 : Nat)
    (cur merged : UndoCmd) (sA : DocState)
    (hinv : RTInv items vals s0 s ⟨cmds0, idx0⟩)
    (hlast : cmds0.getLast? = some cur)
    (hwfA : WfState sA) (hlenA : TextsLenEq sA s0)
    (hstep : ∀ s1, cur.undoOn s = .ok s1 →
      ∃ sB, merged.undoOn sA = .ok sB ∧ RelStates items vals sB s1) :
    RTInv items vals s0 sA ⟨cmds0.dropLast ++ [merged], idx0⟩ := by
  obtain ⟨hwfs, hlens, hidx, sfin, hchain, hwff, hlenf, hobs⟩ := hinv
  simp only at hidx
  have hne : cmds0 ≠ [] := by
    intro h; rw [h] at hlast; cases hlast
  obtain ⟨m, hm⟩ : ∃ m, cmds0.length = m + 1 := by
    cases hl : cmds0.length with
    | zero => exact absurd (List.eq_nil_of_length_eq_zero hl) hne
    | succ m => exact ⟨m, rfl⟩
  have hdl : cmds0.dropLast.length = m := by simp [List.length_dropLast, hm]
  have hgetcur : cmds0[m]? = some cur := by
    rw [← hlast, List.getLast?_eq_getElem?, hm]
    simp
  have hidx' : idx0 = m + 1 := by omega
  subst hidx'
  rw [undoN_succ] at hchain
  cases hu : cur.undoOn s with
  | error e =>
      rw [undoStep_some_err s cmds0 m cur e hgetcur hu] at hchain
      cases hchain
  | ok s1 =>
      rw [undoStep_some_ok s cmds0 m cur s1 hgetcur hu] at hchain
      have hchain2 : undoN m s1 ⟨cmds0, m⟩ = .ok (sfin, ⟨cmds0, 0⟩) := by
        simpa using hchain
      obtain ⟨sB, hundoM, hrel⟩ := hstep s1 hu
      obtain ⟨afin, hchainA, hrelf⟩ :=
        undoN_congr items vals m cmds0 sB s1 hrel sfin ⟨cmds0, 0⟩ hchain2
      have htake : cmds0.take m = (cmds0.dropLast ++ [merged]).take m := by
        rw [List.take_left' hdl, List.dropLast_eq_take, hm]
        simp
      have hchainA' :=
        undoN_cmds_congr m sB cmds0 (cmds0.dropLast ++ [merged]) htake afin _ hchainA
      have hgetm : (cmds0.dropLast ++ [merged])[m]? = some merged := by
        rw [← hdl]; exact List.getElem?_concat_length _ _
      refine ⟨hwfA, hlenA, by simp [hdl, hm], ?_⟩
      refine ⟨afin, ?_, hrelf.1, TextsLenEq_trans hrelf.2.2.1 hlenf,
        ObsEqOn_trans hrelf.2.2.2 hobs⟩
      rw [undoN_succ,
        undoStep_some_ok sA (cmds0.dropLast ++ [merged]) m merged sB hgetm hundoM]
      exact hchainA'

/-- One user event preserves the round-trip invariant and grows the stack
position by at most one. -/
theorem RTInv_step (items : List BackingRef) (vals : List XccdfValue)
    (hids : (items.map BackingRef.id).Nodup)
    (hvds : (vals.map XccdfValue.id).Nodup)
    (s0 s : DocState) (cmds0 : List UndoCmd) (idx0 : Nat) (e : EditEvent)
    (s' : DocState) (st' : UndoStack)
    (hev : EventOk items vals e)
    (hinv : RTInv items vals s0 s ⟨cmds0, idx0⟩)
    (happ : applyEvent s ⟨cmds0, idx0⟩ e = .ok (s', st')) :
    RTInv items vals s0 s' st' ∧ st'.index ≤ idx0 + 1 := by
  have hwfs : WfState s := hinv.1
  have hlens : TextsLenEq s s0 := hinv.2.1
  have hidx : idx0 = cmds0.length := hinv.2.2.1
  have htake0 : List.take idx0 cmds0 = cmds0 := by
    rw [hidx]; exact List.take_length cmds0
  cases e with
  | setCheck item check =>
      simp only [applyEvent] at happ
      cases hdec : itemChangedPush s.policy 0 (some item) check with
      | none =>
          rw [hdec] at happ
          cases happ
          exact ⟨hinv, by simp⟩
      | some cmd =>
          rw [hdec] at happ
          have hguards : item.ty ≠ XccdfType.value ∧
              check ≠ getXccdfItemInternalSelected s.policy item ∧
              cmd = .selectToggle item check := by
            simp only [itemChangedPush] at hdec
            by_cases hty : item.ty = XccdfType.value
            · simp [hty] at hdec
            · by_cases hcs : check = getXccdfItemInternalSelected s.policy item
              · simp [hty, hcs] at hdec
              · simp only [if_neg hty, gt_iff_lt, Nat.lt_irrefl, if_false,
                  bne_iff_ne, ne_eq, hcs, not_false_eq_true, if_true,
                  Option.some.injEq] at hdec
                exact ⟨hty, hcs, hdec.symm⟩
          obtain ⟨hty, hcs, rfl⟩ := hguards
          simp only [pushCmd, UndoCmd.redoOn, Bind.bind, Except.bind,
            setItemSelected_ok, htake0, mergeWith_selectToggle_none] at happ
          cases hlast : cmds0.getLast? with
          | none =>
              simp only [hlast] at happ
              cases happ
              refine ⟨RTInv_append items vals s0 s ⟨cmds0, idx0⟩
                (.selectToggle item check) _ _ hinv
                (by rw [UndoCmd.undoOn]; exact setItemSelected_ok _ item (!check))
                (rel_select_roundtrip items vals hids s item check hev hwfs hcs _ _
                  (setItemSelected_ok s item check) (setItemSelected_ok _ item (!check)))
                ⟨hwfs.1, hwfs.2⟩ ⟨hlens.1, hlens.2⟩, by simp⟩
          | some cur =>
              simp only [hlast] at happ
              cases happ
              refine ⟨RTInv_append items vals s0 s ⟨cmds0, idx0⟩
                (.selectToggle item check) _ _ hinv
                (by rw [UndoCmd.undoOn]; exact setItemSelected_ok _ item (!check))
                (rel_select_roundtrip items vals hids s item check hev hwfs hcs _ _
                  (setItemSelected_ok s item check) (setItemSelected_ok _ item (!check)))
                ⟨hwfs.1, hwfs.2⟩ ⟨hlens.1, hlens.2⟩, by simp⟩
  | editValue v nv =>
      simp only [applyEvent] at happ
      simp only [pushCmd, UndoCmd.redoOn, Bind.bind, Except.bind,
        setValueValue_ok, htake0] at happ
      cases hlast : cmds0.getLast? with
      | none =>
          simp only [hlast] at happ
          cases happ
          refine ⟨RTInv_append items vals s0 s ⟨cmds0, idx0⟩
            (.valueChange v nv (getCurrentValueValue s v)) _ _ hinv
            (by rw [UndoCmd.undoOn]; exact setValueValue_ok _ v _)
            (rel_value_roundtrip items vals hvds s v nv hev hwfs _ _
              (setValueValue_ok s v nv) (setValueValue_ok _ v _))
            ⟨hwfs.1, hwfs.2⟩ ⟨hlens.1, hlens.2⟩, by simp⟩
      | some cur =>
          simp only [hlast] at happ
          cases hm : cur.mergeWith (.valueChange v nv (getCurrentValueValue s v)) with
          | none =>
              simp only [hm] at happ
              cases happ
              refine ⟨RTInv_append items vals s0 s ⟨cmds0, idx0⟩
                (.valueChange v nv (getCurrentValueValue s v)) _ _ hinv
                (by rw [UndoCmd.undoOn]; exact setValueValue_ok _ v _)
                (rel_value_roundtrip items vals hvds s v nv hev hwfs _ _
                  (setValueValue_ok s v nv) (setValueValue_ok _ v _))
                ⟨hwfs.1, hwfs.2⟩ ⟨hlens.1, hlens.2⟩, by simp⟩
          | some merged =>
              obtain ⟨nc, oc, rfl, rfl⟩ : ∃ nc oc,
                  cur = .valueChange v nc oc ∧
                  merged = .valueChange v nv oc := by
                cases cur with
                | valueChange vc nc oc =>
                    by_cases hv : v = vc
                    · subst hv
                      rw [show UndoCmd.mergeWith (UndoCmd.valueChange v nc oc)
                            (UndoCmd.valueChange v nv (getCurrentValueValue s v)) =
                          some (UndoCmd.valueChange v nv oc) from by
                            simp [UndoCmd.mergeWith]] at hm
                      injection hm with hm
                      exact ⟨nc, oc, rfl, hm.symm⟩
                    · simp [UndoCmd.mergeWith, hv] at hm
                | selectToggle i b => simp [UndoCmd.mergeWith] at hm
                | profileTitleChange o n => simp [UndoCmd.mergeWith] at hm
                | profileDescriptionChange o n => simp [UndoCmd.mergeWith] at hm
              simp only [hm] at happ
              cases happ
              refine ⟨RTInv_merge items vals s0 s cmds0 idx0
                (.valueChange v nc oc) (.valueChange v nv oc) _ hinv
                (by rw [← htake0] at hlast ⊢; exact hlast) ⟨hwfs.1, hwfs.2⟩
                ⟨hlens.1, hlens.2⟩ ?_, by simp⟩
              intro s1 h1
              rw [UndoCmd.undoOn] at h1 ⊢
              exact ⟨_, setValueValue_ok _ v oc,
                rel_value_merge items vals s v nv oc hwfs _ _ s1
                  (setValueValue_ok s v nv) (setValueValue_ok _ v oc) h1⟩
  | editTitle t =>
      simp only [applyEvent] at happ
      by_cases hne : s.profile.titles = []
      · simp only [pushCmd, UndoCmd.redoOn, Bind.bind, Except.bind,
          setProfileTitle_empty s t hne] at happ
        cases happ
      · obtain ⟨tsA, haeq, hlenA, hprefA, hwfA'⟩ :=
          setProfileTitle_ok_spec s t hwfs.1 hne
        have hneA : tsA ≠ [] := by
          intro h
          rw [h] at hlenA
          exact hne (List.eq_nil_of_length_eq_zero hlenA.symm)
        simp only [pushCmd, UndoCmd.redoOn, Bind.bind, Except.bind,
          haeq, htake0] at happ
        have hundoA : ∀ old, ∃ sB,
            setProfileTitle { s with profile := { s.profile with titles := tsA } } old =
              .ok sB ∧ WfState sB ∧
            sB.profile.titles.length = s.profile.titles.length ∧
            getProfileTitle sB = old ∧
            sB.profile.descriptions = s.profile.descriptions ∧
            sB.policy = s.policy ∧
            sB.profile.setvalues = s.profile.setvalues := by
          intro old
          obtain ⟨tsB, hBeq, hlenB, hprefB, hwfB'⟩ :=
            setProfileTitle_ok_spec { s with profile := { s.profile with titles := tsA } }
              old hwfA' hneA
          exact ⟨_, hBeq, ⟨hwfB', hwfs.2⟩, by simpa [hlenB] using hlenA,
            hprefB, rfl, rfl, rfl⟩
        cases hlast : cmds0.getLast? with
        | none =>
            simp only [hlast] at happ
            cases happ
            obtain ⟨sB, hBeq, hwfB, hlenB, hprefB, hdB, hpolB, hsvB⟩ :=
              hundoA (getProfileTitle s)
            refine ⟨RTInv_append items vals s0 s ⟨cmds0, idx0⟩
              (.profileTitleChange (getProfileTitle s) t) _ sB hinv
              (by rw [UndoCmd.undoOn]; exact hBeq)
              (RelStates_of_fields items vals sB s hwfB hwfs hpolB hsvB hprefB
                (by rw [hdB]) (by rw [hlenB]) (by rw [hdB]))
              ⟨hwfA', hwfs.2⟩ ⟨hlenA.trans hlens.1, hlens.2⟩, by simp⟩
        | some cur =>
            simp only [hlast] at happ
            cases hm : cur.mergeWith (.profileTitleChange (getProfileTitle s) t) with
            | none =>
                simp only [hm] at happ
                cases happ
                obtain ⟨sB, hBeq, hwfB, hlenB, hprefB, hdB, hpolB, hsvB⟩ :=
                  hundoA (getProfileTitle s)
                refine ⟨RTInv_append items vals s0 s ⟨cmds0, idx0⟩
                  (.profileTitleChange (getProfileTitle s) t) _ sB hinv
                  (by rw [UndoCmd.undoOn]; exact hBeq)
                  (RelStates_of_fields items vals sB s hwfB hwfs hpolB hsvB hprefB
                    (by rw [hdB]) (by rw [hlenB]) (by rw [hdB]))
                  ⟨hwfA', hwfs.2⟩ ⟨hlenA.trans hlens.1, hlens.2⟩, by simp⟩
            | some merged =>
                obtain ⟨oc, nc, rfl, rfl⟩ : ∃ oc nc,
                    cur = .profileTitleChange oc nc ∧
                    merged = .profileTitleChange oc t := by
                  cases cur with
                  | profileTitleChange oc nc =>
                      simp only [UndoCmd.mergeWith, Option.some.injEq] at hm
                      exact ⟨oc, nc, rfl, hm.symm⟩
                  | selectToggle i b => simp [UndoCmd.mergeWith] at hm
                  | valueChange a b c => simp [UndoCmd.mergeWith] at hm
                  | profileDescriptionChange o n => simp [UndoCmd.mergeWith] at hm
                simp only [hm] at happ
                cases happ
                refine ⟨RTInv_merge items vals s0 s cmds0 idx0
                  (.profileTitleChange oc nc) (.profileTitleChange oc t) _ hinv
                  (by rw [← htake0] at hlast ⊢; exact hlast) ⟨hwfA', hwfs.2⟩
                  ⟨hlenA.trans hlens.1, hlens.2⟩ ?_, by simp⟩
                intro s1 h1
                rw [UndoCmd.undoOn] at h1 ⊢
                obtain ⟨ts1, h1eq, hlen1, hpref1, hwf1'⟩ :=
                  setProfileTitle_ok_spec s oc hwfs.1 hne
                rw [h1eq] at h1
                injection h1 with h1
                subst h1
                obtain ⟨sB, hBeq, hwfB, hlenB, hprefB, hdB, hpolB, hsvB⟩ := hundoA oc
                refine ⟨sB, hBeq, RelStates_of_fields items vals sB _ hwfB
                  ⟨hwf1', hwfs.2⟩ hpolB hsvB ?_ (by rw [hdB]) ?_ (by rw [hdB])⟩
                · show getProfileTitle sB = preferredText ts1
                  rw [hprefB, hpref1]
                · rw [hlenB]
                  exact hlen1.symm
  | editDescription t =>
      simp only [applyEvent] at happ
      by_cases hne : s.profile.descriptions = []
      · simp only [pushCmd, UndoCmd.redoOn, Bind.bind, Except.bind,
          setProfileDescription_empty s t hne] at happ
        cases happ
      · obtain ⟨tsA, haeq, hlenA, hprefA, hwfA'⟩ :=
          setProfileDescription_ok_spec s t hwfs.2 hne
        have hneA : tsA ≠ [] := by
          intro h
          rw [h] at hlenA
          exact hne (List.eq_nil_of_length_eq_zero hlenA.symm)
        simp only [pushCmd, UndoCmd.redoOn, Bind.bind, Except.bind,
          haeq, htake0] at happ
        have hundoA : ∀ old, ∃ sB,
            setProfileDescription
                { s with profile := { s.profile with descriptions := tsA } } old =
              .ok sB ∧ WfState sB ∧
            sB.profile.descriptions.length = s.profile.descriptions.length ∧
            getProfileDescription sB = old ∧
            sB.profile.titles = s.profile.titles ∧
            sB.policy = s.policy ∧
            sB.profile.setvalues = s.profile.setvalues := by
          intro old
          obtain ⟨tsB, hBeq, hlenB, hprefB, hwfB'⟩ :=
            setProfileDescription_ok_spec
              { s with profile := { s.profile with descriptions := tsA } }
              old hwfA' hneA
          exact ⟨_, hBeq, ⟨hwfs.1, hwfB'⟩, by simpa [hlenB] using hlenA,
            hprefB, rfl, rfl, rfl⟩
        cases hlast : cmds0.getLast? with
        | none =>
            simp only [hlast] at happ
            cases happ
            obtain ⟨sB, hBeq, hwfB, hlenB, hprefB, htB, hpolB, hsvB⟩ :=
              hundoA (getProfileDescription s)
            refine ⟨RTInv_append items vals s0 s ⟨cmds0, idx0⟩
              (.profileDescriptionChange (getProfileDescription s) t) _ sB hinv
              (by rw [UndoCmd.undoOn]; exact hBeq)
              (RelStates_of_fields items vals sB s hwfB hwfs hpolB hsvB
                (by rw [htB]) hprefB (by rw [htB]) (by rw [hlenB]))
              ⟨hwfs.1, hwfA'⟩ ⟨hlens.1, hlenA.trans hlens.2⟩, by simp⟩
        | some cur =>
            simp only [hlast] at happ
            cases hm : cur.mergeWith
                (.profileDescriptionChange (getProfileDescription s) t) with
            | none =>
                simp only [hm] at happ
                cases happ
                obtain ⟨sB, hBeq, hwfB, hlenB, hprefB, htB, hpolB, hsvB⟩ :=
                  hundoA (getProfileDescription s)
                refine ⟨RTInv_append items vals s0 s ⟨cmds0, idx0⟩
                  (.profileDescriptionChange (getProfileDescription s) t) _ sB hinv
                  (by rw [UndoCmd.undoOn]; exact hBeq)
                  (RelStates_of_fields items vals sB s hwfB hwfs hpolB hsvB
                    (by rw [htB]) hprefB (by rw [htB]) (by rw [hlenB]))
                  ⟨hwfs.1, hwfA'⟩ ⟨hlens.1, hlenA.trans hlens.2⟩, by simp⟩
            | some merged =>
                obtain ⟨oc, nc, rfl, rfl⟩ : ∃ oc nc,
                    cur = .profileDescriptionChange oc nc ∧
                    merged = .profileDescriptionChange oc t := by
                  cases cur with
                  | profileDescriptionChange oc nc =>
                      simp only [UndoCmd.mergeWith, Option.some.injEq] at hm
                      exact ⟨oc, nc, rfl, hm.symm⟩
                  | selectToggle i b => simp [UndoCmd.mergeWith] at hm
                  | valueChange a b c => simp [UndoCmd.mergeWith] at hm
                  | profileTitleChange o n => simp [UndoCmd.mergeWith] at hm
                simp only [hm] at happ
                cases happ
                refine ⟨RTInv_merge items vals s0 s cmds0 idx0
                  (.profileDescriptionChange oc nc) (.profileDescriptionChange oc t)
                  _ hinv
                  (by rw [← htake0] at hlast ⊢; exact hlast) ⟨hwfs.1, hwfA'⟩
                  ⟨hlens.1, hlenA.trans hlens.2⟩ ?_, by simp⟩
                intro s1 h1
                rw [UndoCmd.undoOn] at h1 ⊢
                obtain ⟨ts1, h1eq, hlen1, hpref1, hwf1'⟩ :=
                  setProfileDescription_ok_spec s oc hwfs.2 hne
                rw [h1eq] at h1
                injection h1 with h1
                subst h1
                obtain ⟨sB, hBeq, hwfB, hlenB, hprefB, htB, hpolB, hsvB⟩ := hundoA oc
                refine ⟨sB, hBeq, RelStates_of_fields items vals sB _ hwfB
                  ⟨hwfs.1, hwf1'⟩ hpolB hsvB (by rw [htB]) ?_ (by rw [htB]) ?_⟩
                · show getProfileDescription sB = preferredText ts1
                  rw [hprefB, hpref1]
                · rw [hlenB]
                  exact hlen1.symm

instance (items : List BackingRef) (vals : List XccdfValue) (e : EditEvent) :
    Decidable (EventOk items vals e) := by
  cases e <;> simp only [EventOk] <;> infer_instance

theorem applyEvents_RTInv (items : List BackingRef) (vals : List XccdfValue)
    (hids : (items.map BackingRef.id).Nodup)
    (hvds : (vals.map XccdfValue.id).Nodup) (s0 : DocState) :
    ∀ (events : List EditEvent) (s : DocState) (st : UndoStack)
      (s' : DocState) (st' : UndoStack),
    (∀ e ∈ events, EventOk items vals e) →
    RTInv items vals s0 s st →
    applyEvents s st events = .ok (s', st') →
    RTInv items vals s0 s' st' ∧ st'.index ≤ st.index + events.length := by
  intro events
  induction events with
  | nil =>
      intro s st s' st' _ hinv happ
      simp only [applyEvents] at happ
      cases happ
      exact ⟨hinv, by simp⟩
  | cons e rest ih =>
      intro s st s' st' hev hinv happ
      simp only [applyEvents, Bind.bind, Except.bind] at happ
      cases happ1 : applyEvent s st e with
      | error msg => rw [happ1] at happ; cases happ
      | ok p =>
          rw [happ1] at happ
          obtain ⟨hinv1, hle1⟩ := RTInv_step items vals hids hvds s0 s
            st.cmds st.index e p.1 p.2 (hev e (List.mem_cons_self e rest)) hinv happ1
          obtain ⟨hinv2, hle2⟩ := ih p.1 p.2 s' st'
            (fun x hx => hev x (List.mem_cons_of_mem e hx)) hinv1 happ
          exact ⟨hinv2, by simp only [List.length_cons]; omega⟩

/-- C1: for every sequence of N user edits pushed onto the (initially empty)
undo stack — any mix of selection toggles, value edits, title edits and
description edits — invoking undo() N times (as `setIndex(0)` does on cancel)
restores the external state bit-identically: the effective selection of every
benchmark item, the effective value of every value item, and the profile
title and description all equal their pre-sequence values.  Hypotheses: the
benchmark's item/value ids are unique (an XCCDF document invariant), the
profile's text blocks carry at most one designated default-language entry
(the spec's data-model shape), the events address items of this benchmark,
and the edit sequence itself executed without a fatal error. -/
theorem claim_C1_round_trip (items : List BackingRef) (vals : List XccdfValue)
    (events : List EditEvent) (s0 : DocState)
    (hids : (items.map BackingRef.id).Nodup)
    (hvds : (vals.map XccdfValue.id).Nodup)
    (hwf : WfState s0)
    (hev : ∀ e ∈ events, EventOk items vals e)
    (s : DocState) (st : UndoStack)
    (hrun : applyEvents s0 UndoStack.empty events = .ok (s, st)) :
    ∃ sfin, undoN events.length s st = .ok (sfin, ⟨st.cmds, 0⟩) ∧
      ObsEqOn items vals sfin s0 := by
  have hbase : RTInv items vals s0 s0 UndoStack.empty :=
    ⟨hwf, ⟨rfl, rfl⟩, rfl, s0, rfl, hwf, ⟨rfl, rfl⟩,
      fun _ _ => rfl, fun _ _ => rfl, rfl, rfl⟩
  obtain ⟨hinv, hle⟩ := applyEvents_RTInv items vals hids hvds s0 events
    s0 UndoStack.empty s st hev hbase hrun
  obtain ⟨hwfs, hlens, hidx, sfin, hchain, _, _, hobs⟩ := hinv
  have hsplit : events.length = st.index + (events.length - st.index) := by
    simp only [UndoStack.empty] at hle
    omega
  refine ⟨sfin, ?_, hobs⟩
  rw [hsplit, undoN_add, hchain]
  exact undoN_index_zero _ sfin ⟨st.cmds, 0⟩ rfl

/-- Witness for `claim_C1_round_trip`: a rule toggle followed by a value edit
on a concrete benchmark, then two undos. -/
theorem claim_C1_round_trip_witness :
    ∃ sfin,
      undoN 2
        ⟨⟨"p", [⟨"r1", true⟩], [⟨"v1", "x"⟩], [⟨"en", "T"⟩], [⟨"en", "D"⟩]⟩,
          ⟨[⟨"r1", true⟩]⟩⟩
        ⟨[.selectToggle ⟨"r1", .rule, false⟩ true,
          .valueChange ⟨"v1", "dv"⟩ "x" "dv"], 2⟩ =
        .ok (sfin, ⟨[.selectToggle ⟨"r1", .rule, false⟩ true,
          .valueChange ⟨"v1", "dv"⟩ "x" "dv"], 0⟩) ∧
      ObsEqOn [⟨"r1", .rule, false⟩] [⟨"v1", "dv"⟩] sfin
        ⟨⟨"p", [], [], [⟨"en", "T"⟩], [⟨"en", "D"⟩]⟩, ⟨[]⟩⟩ :=
  claim_C1_round_trip [⟨"r1", .rule, false⟩] [⟨"v1", "dv"⟩]
    [.setCheck ⟨"r1", .rule, false⟩ true, .editValue ⟨"v1", "dv"⟩ "x"]
    ⟨⟨"p", [], [], [⟨"en", "T"⟩], [⟨"en", "D"⟩]⟩, ⟨[]⟩⟩
    (by decide) (by decide) (by decide) (by decide)
    ⟨⟨"p", [⟨"r1", true⟩], [⟨"v1", "x"⟩], [⟨"en", "T"⟩], [⟨"en", "D"⟩]⟩,
      ⟨[⟨"r1", true⟩]⟩⟩
    ⟨[.selectToggle ⟨"r1", .rule, false⟩ true,
      .valueChange ⟨"v1", "dv"⟩ "x" "dv"], 2⟩
    rfl

/-- C2: `setItemSelected(item, selected)` builds a select override
`(item.id, selected)`, appends it to the profile and to the policy's working
set, and its post-condition holds: the item immediately reads back as
`selected`.  The function returns normally exactly with the appended state,
and the thrown-`TailoringWindowException` branch of the definition is dead
because the post-condition provably always holds. -/
theorem claim_C2_setSelected_postcondition (s : DocState) (item : BackingRef) (b : Bool) :
    setItemSelected s item b =
      .ok { profile := { s.profile with
              selects := s.profile.selects ++ [{ item := item.id, selected := b }] }
            policy := { selects := s.policy.selects ++ [{ item := item.id, selected := b }] } } ∧
    getXccdfItemInternalSelected
      { selects := s.policy.selects ++ [{ item := item.id, selected := b }] } item = b := by
  refine ⟨setItemSelected_ok s item b, ?_⟩
  simp only [getXccdfItemInternalSelected]
  rw [show ({ selects := s.policy.selects ++ [{ item := item.id, selected := b }] } : XccdfPolicy)
        = { selects := s.policy.selects ++ [({ item := item.id, selected := b } : XccdfSelect)] } from rfl,
      getSelectById_append_self]

/-- C7: `setValueValue(valueItem, newValue)` builds a set-value override
`(valueItem.id, newValue)`, appends it to the profile, and its asserted
post-condition holds: `getCurrentValueValue(valueItem)` immediately equals
`newValue`.  The function returns normally exactly with the appended state,
and the assertion-failure branch of the definition is dead because the
post-condition provably always holds. -/
theorem claim_C7_setValue_postcondition (s : DocState) (v : XccdfValue) (x : String) :
    setValueValue s v x =
      .ok { s with profile := { s.profile with
              setvalues := s.profile.setvalues ++ [{ item := v.id, value := x }] } } ∧
    getCurrentValueValue
      { s with profile := { s.profile with
          setvalues := s.profile.setvalues ++ [{ item := v.id, value := x }] } } v = x := by
  refine ⟨setValueValue_ok s v x, ?_⟩
  simp [getCurrentValueValue, getValueOfItem_append]

/-- C10: the tree-item change handler pushes a command iff the synchronize
lock is zero, the item has a backing document item, that item is not a Value,
and the new checkbox state differs from the policy-evaluated effective
selection; in every other case nothing is pushed. -/
theorem claim_C10_itemChanged_push_iff (pol : XccdfPolicy) (lock : Nat)
    (backing : Option BackingRef) (checkState : Bool) :
    (itemChangedPush pol lock backing checkState).isSome ↔
      (lock = 0 ∧ ∃ item, backing = some item ∧ item.ty ≠ XccdfType.value ∧
        checkState ≠ getXccdfItemInternalSelected pol item) := by
  cases backing with
  | none =>
      simp only [itemChangedPush]
      by_cases h : lock > 0 <;> simp [h]
  | some item =>
      simp only [itemChangedPush]
      by_cases h : lock > 0
      · simp [h, Nat.pos_iff_ne_zero.mp h]
      · have h0 : lock = 0 := Nat.eq_zero_of_not_pos h
        by_cases hty : item.ty = XccdfType.value
        · simp [h, h0, hty]
        · by_cases hcs : checkState = getXccdfItemInternalSelected pol item
          · simp [h, h0, hty, hcs]
          · simp [h, h0, hty, hcs, bne_iff_ne]

/-- C8: the title/description mutation edits, in place, the entry tagged with
the configured default language when one exists (the edited position carries
the default-language tag), falls back to the first entry (position 0) when no
default-language entry exists, and on a completely empty text block fails
with the fatal "no suitable text" error instead of inserting a new entry (the
success case is always a positional `set`, never an insertion). -/
theorem claim_C8_text_mutation_rule (s : DocState) (txt : String)
    (hwfT : NoTwoDefaults s.profile.titles)
    (hwfD : NoTwoDefaults s.profile.descriptions) :
    (s.profile.titles = [] →
      setProfileTitle s txt =
        .error "Not suitable oscap_text found that we could edit.") ∧
    (s.profile.descriptions = [] →
      setProfileDescription s txt =
        .error "Not suitable oscap_text found that we could edit.") ∧
    (s.profile.titles ≠ [] → ∃ k, ∃ hk : k < s.profile.titles.length,
      setProfileTitle s txt = .ok { s with profile := { s.profile with
          titles := s.profile.titles.set k ⟨OSCAP_LANG_DEFAULT, txt⟩ } } ∧
      ((∃ t ∈ s.profile.titles, t.lang = OSCAP_LANG_DEFAULT) →
        (s.profile.titles.get ⟨k, hk⟩).lang = OSCAP_LANG_DEFAULT) ∧
      ((∀ t ∈ s.profile.titles, t.lang ≠ OSCAP_LANG_DEFAULT) → k = 0)) ∧
    (s.profile.descriptions ≠ [] → ∃ k, ∃ hk : k < s.profile.descriptions.length,
      setProfileDescription s txt = .ok { s with profile := { s.profile with
          descriptions := s.profile.descriptions.set k ⟨OSCAP_LANG_DEFAULT, txt⟩ } } ∧
      ((∃ t ∈ s.profile.descriptions, t.lang = OSCAP_LANG_DEFAULT) →
        (s.profile.descriptions.get ⟨k, hk⟩).lang = OSCAP_LANG_DEFAULT) ∧
      ((∀ t ∈ s.profile.descriptions, t.lang ≠ OSCAP_LANG_DEFAULT) → k = 0)) := by
  refine ⟨setProfileTitle_empty s txt, setProfileDescription_empty s txt, ?_, ?_⟩
  · intro hne
    obtain ⟨k, hk, heq, hpref, _, hdef, hnodef⟩ :=
      editOscapText_spec s.profile.titles txt hwfT hne
    refine ⟨k, hk, ?_, hdef, hnodef⟩
    simp [setProfileTitle, heq, Bind.bind, Except.bind, getProfileTitle, hpref]
  · intro hne
    obtain ⟨k, hk, heq, hpref, _, hdef, hnodef⟩ :=
      editOscapText_spec s.profile.descriptions txt hwfD hne
    refine ⟨k, hk, ?_, hdef, hnodef⟩
    simp [setProfileDescription, heq, Bind.bind, Except.bind, getProfileDescription, hpref]

/-- Witness for `claim_C8_text_mutation_rule` on a concrete profile whose
title block is empty: the mutation fails with the fatal error. -/
theorem claim_C8_text_mutation_rule_witness :
    setProfileTitle ⟨⟨"p", [], [], [], [⟨"fr", "d"⟩]⟩, ⟨[]⟩⟩ "new" =
      .error "Not suitable oscap_text found that we could edit." :=
  (claim_C8_text_mutation_rule ⟨⟨"p", [], [], [], [⟨"fr", "d"⟩]⟩, ⟨[]⟩⟩ "new"
    (by decide) (by decide)).1 rfl

/-- C4: pushing two value-change commands for the same value item in
immediate succession leaves exactly one history entry, whose old value is the
first command's old value and whose new value is the second command's new
value; pushing value-change commands for two different value items never
merges — both appear as separate entries (each with its own captured old
value). -/
theorem claim_C4_valueChange_merge (s : DocState) (v w : XccdfValue)
    (n1 n2 : String) (hvw : v ≠ w) :
    (applyEvents s UndoStack.empty [.editValue v n1, .editValue v n2] =
      .ok ({ s with profile := { s.profile with setvalues :=
               (s.profile.setvalues ++ [{ item := v.id, value := n1 }]) ++
                 [{ item := v.id, value := n2 }] } },
           ⟨[.valueChange v n2 (getCurrentValueValue s v)], 1⟩)) ∧
    (applyEvents s UndoStack.empty [.editValue v n1, .editValue w n2] =
      .ok ({ s with profile := { s.profile with setvalues :=
               (s.profile.setvalues ++ [{ item := v.id, value := n1 }]) ++
                 [{ item := w.id, value := n2 }] } },
           ⟨[.valueChange v n1 (getCurrentValueValue s v),
             .valueChange w n2 (getCurrentValueValue
               { s with profile := { s.profile with setvalues :=
                   s.profile.setvalues ++ [{ item := v.id, value := n1 }] } } w)],
            2⟩)) := by
  constructor
  · simp [applyEvents, applyEvent, pushCmd, UndoCmd.redoOn, setValueValue_ok,
      UndoStack.empty, UndoCmd.mergeWith, Bind.bind, Except.bind,
      List.take, List.getLast?, List.dropLast]
  · simp [applyEvents, applyEvent, pushCmd, UndoCmd.redoOn, setValueValue_ok,
      UndoStack.empty, UndoCmd.mergeWith, Ne.symm hvw, Bind.bind, Except.bind,
      List.take, List.getLast?, List.dropLast]

/-- C6: refreshing a property panel never fires a push — every slot
invocation during `refresh()` happens with the guard flag raised and decides
`none` — while the same slots invoked outside a refresh (guard flag down) do
construct and push a command. -/
theorem claim_C6_refresh_pushes_nothing (s : DocState) (p : ProfilePanel)
    (q : ItemPanel) (t nv uiId uiTitle uiDesc uiVal : String) (v : XccdfValue) :
    (∀ f ∈ (profilePanelRefresh s p).2, f = none) ∧
    (∀ f ∈ (itemPanelRefresh s q).2, f = none) ∧
    profileTitleChangedPush ⟨false, uiId, uiTitle, uiDesc⟩ s t =
      some (.profileTitleChange (getProfileTitle s) t) ∧
    profileDescriptionChangedPush ⟨false, uiId, uiTitle, uiDesc⟩ s =
      some (.profileDescriptionChange (getProfileDescription s) uiDesc) ∧
    valueChangedPush ⟨false, uiVal, some v⟩ s nv =
      some (.valueChange v nv (getCurrentValueValue s v)) := by
  refine ⟨?_, ?_, rfl, rfl, rfl⟩
  · simp only [profilePanelRefresh, profileTitleChangedPush,
      profileDescriptionChangedPush]
    split_ifs <;> simp
  · simp only [itemPanelRefresh, valueChangedPush]
    split
    · simp
    · split <;> simp

theorem undoStep_stack (s : DocState) (st : UndoStack) (s' : DocState)
    (st' : UndoStack) (h : undoStep s st = .ok (s', st')) :
    st'.cmds = st.cmds ∧ st'.index = st.index - 1 := by
  unfold undoStep at h
  split at h
  · cases h
    constructor
    · rfl
    · omega
  · rename_i m hm
    split at h
    · simp only [Bind.bind, Except.bind] at h
      split at h
      · cases h
      · cases h
        exact ⟨rfl, by simp [hm]⟩
    · cases h
      exact ⟨rfl, by simp [hm]⟩

theorem undoN_stack (n : Nat) : ∀ (s : DocState) (st : UndoStack) s' st',
    undoN n s st = .ok (s', st') →
    st'.cmds = st.cmds ∧ st'.index = st.index - n := by
  induction n with
  | zero =>
      intro s st s' st' h
      simp only [undoN] at h
      cases h
      exact ⟨rfl, rfl⟩
  | succ n ih =>
      intro s st s' st' h
      simp only [undoN, Bind.bind, Except.bind] at h
      split at h
      · cases h
      · rename_i v hv
        obtain ⟨hc1, hi1⟩ := undoStep_stack s st v.1 v.2 (by rw [hv])
        obtain ⟨hc2, hi2⟩ := ih v.1 v.2 s' st' h
        exact ⟨hc2.trans hc1, by omega⟩

/-- C9: closing with unconfirmed changes prompts; declining aborts the close
with no state change and no teardown notification; accepting first resets the
history to position 0 by undoing every applied command (`setIndex(0)`), then
tears down and notifies the parent. -/
theorem claim_C9_close_confirmation (w : TWindow)
    (hunc : w.changesConfirmed = false) :
    closeEvent w false = .ok (w, false, none) ∧
    (∀ d' st', setIndexZero w.doc w.stack = .ok (d', st') →
      closeEvent w true =
        .ok ({ w with doc := d', stack := st' }, true,
             some (w.newProfile, w.changesConfirmed)) ∧
      st'.index = 0 ∧ st'.cmds = w.stack.cmds) := by
  constructor
  · simp [closeEvent, hunc]
  · intro d' st' h
    obtain ⟨hc, hi⟩ := undoN_stack w.stack.index w.doc w.stack d' st' h
    refine ⟨?_, by omega, hc⟩
    simp [closeEvent, hunc, setIndexZero] at h ⊢
    simp [h, Bind.bind, Except.bind, hunc]

/-- Witness for `claim_C9_close_confirmation` on a concrete unconfirmed
window with an empty history. -/
theorem claim_C9_close_confirmation_witness :
    closeEvent ⟨⟨⟨"p", [], [], [], []⟩, ⟨[]⟩⟩, UndoStack.empty, false, false⟩ false =
      .ok (⟨⟨⟨"p", [], [], [], []⟩, ⟨[]⟩⟩, UndoStack.empty, false, false⟩, false, none) :=
  (claim_C9_close_confirmation
    ⟨⟨⟨"p", [], [], [], []⟩, ⟨[]⟩⟩, UndoStack.empty, false, false⟩ rfl).1

/-- Witness for `claim_C4_valueChange_merge` at concrete distinct value
items. -/
theorem claim_C4_valueChange_merge_witness :
    (⟨"a", "1"⟩ : XccdfValue) ≠ ⟨"b", "2"⟩ ∧
    (applyEvents ⟨⟨"p", [], [], [], []⟩, ⟨[]⟩⟩ UndoStack.empty
        [.editValue ⟨"a", "1"⟩ "x", .editValue ⟨"a", "1"⟩ "y"] =
      .ok ({ profile := ⟨"p", [], [⟨"a", "x"⟩, ⟨"a", "y"⟩], [], []⟩, policy := ⟨[]⟩ },
           ⟨[.valueChange ⟨"a", "1"⟩ "y" "1"], 1⟩)) := by
  have h := claim_C4_valueChange_merge ⟨⟨"p", [], [], [], []⟩, ⟨[]⟩⟩
    ⟨"a", "1"⟩ ⟨"b", "2"⟩ "x" "y" (by decide)
  exact ⟨by decide, by
    have h1 := h.1
    simpa [getCurrentValueValue, getValueOfItem] using h1⟩


/-- C5: `synchronizeTreeItem` (lines 561-705) brackets every call with the
process-wide reentrancy counter — incremented on entry, decremented on exit,
including every recursive call, so the counter always returns to its entry
value — and every `itemChanged` notification emitted during the call fires
with the counter strictly above the caller's level and constructs/pushes no
undo command; independently, the `itemChanged` handler (lines 866-869)
returns without pushing whenever the counter is non-zero. -/
theorem claim_C5_sync_reentrancy_guard (pol : XccdfPolicy) (st : SyncSt)
    (t : TreeItem) (it : XccdfItem) (r : Bool) :
    ((syncTreeItem pol st t it r).2.lock = st.lock ∧
      ∃ added, (syncTreeItem pol st t it r).2.fires = st.fires ++ added ∧
        ∀ p ∈ added, st.lock < p.1 ∧ p.2 = none) ∧
    ∀ (lock : Nat) (b : Option BackingRef) (cs : Bool), 0 < lock →
      itemChangedPush pol lock b cs = none := by
  refine ⟨syncTreeItem_LockStep pol (sizeOf it + 1) it (by omega) st t r, ?_⟩
  intro lock b cs h
  exact itemChangedPush_pos pol lock b cs h

/-- Witness for C5 at a concrete policy, synchronizer state and lock value. -/
theorem claim_C5_sync_reentrancy_guard_witness :
    itemChangedPush { selects := [] } 1 none false = none :=
  (claim_C5_sync_reentrancy_guard { selects := [] } { lock := 0, fires := [] }
      freshTreeItem (XccdfItem.mk "b" XccdfType.benchmark true "t" []) true).2
    1 none false (by decide)


/-! ### Child-list ordering facts (claim C3) -/

theorem children_withText (t : TreeItem) (v : String) :
    (t.withText v).children = t.children := by
  cases t; rfl

theorem children_withIdText (t : TreeItem) (v : String) :
    (t.withIdText v).children = t.children := by
  cases t; rfl

theorem children_withBacking (t : TreeItem) (v : Option BackingRef) :
    (t.withBacking v).children = t.children := by
  cases t; rfl

theorem children_withCheckable (t : TreeItem) (v : Bool) :
    (t.withCheckable v).children = t.children := by
  cases t; rfl

theorem children_withCheckState (t : TreeItem) (v : Bool) :
    (t.withCheckState v).children = t.children := by
  cases t; rfl

theorem children_withChildren (t : TreeItem) (v : List TreeItem) :
    (t.withChildren v).children = v := by
  cases t; rfl

theorem backingId_withChildren (t : TreeItem) (v : List TreeItem) :
    (t.withChildren v).backingId = t.backingId := by
  cases t; rfl

theorem backingId_withDisabled (t : TreeItem) (v : Bool) :
    (t.withDisabled v).backingId = t.backingId := by
  cases t; rfl

theorem backingId_withCheckState (t : TreeItem) (v : Bool) :
    (t.withCheckState v).backingId = t.backingId := by
  cases t; rfl

theorem backingId_withCheckable (t : TreeItem) (v : Bool) :
    (t.withCheckable v).backingId = t.backingId := by
  cases t; rfl

theorem backingId_withBacking (t : TreeItem) (v : Option BackingRef) :
    (t.withBacking v).backingId = v.map BackingRef.id := by
  cases t; rfl

/-- The synchronizer stamps the document item into the display node: the
resulting node is backed by exactly the item it was synchronized against. -/
theorem syncTreeItem_fst_backingId (pol : XccdfPolicy) (st : SyncSt)
    (t : TreeItem) (it : XccdfItem) (r : Bool) :
    (syncTreeItem pol st t it r).1.backingId = some it.id := by
  rw [syncTreeItem]
  dsimp only
  rcases hty : it.ty <;> cases r <;>
    simp [hty, backingId_withChildren, backingId_withCheckState,
      backingId_withCheckable, backingId_withBacking, refOf]

/-- `_syncXCCDFItemChildrenDisabledState` preserves the backing of every
top-level child (it only flips disabled flags and recurses into subtrees). -/
theorem syncChildrenDisabled_map_backingId (pol : XccdfPolicy) (n : Nat) :
    ∀ (cs : List TreeItem), sizeOf cs < n → ∀ (st : SyncSt) (e : Bool),
    ((syncChildrenDisabled pol st cs e).1).map TreeItem.backingId
      = cs.map TreeItem.backingId := by
  induction n with
  | zero => intro cs h; omega
  | succ n ih =>
      intro cs hsz st e
      match cs with
      | [] => rw [syncChildrenDisabled]
      | c :: rest =>
          have hszr : sizeOf rest < n := by
            simp only [List.cons.sizeOf_spec] at hsz
            have : 0 < sizeOf c := by
              cases c
              simp only [TreeItem.mk.sizeOf_spec]
              omega
            omega
          rw [syncChildrenDisabled]
          split
          · rcases hrec1 : syncChildrenDisabled pol (fire pol st (c.withDisabled true))
                (c.withDisabled true).children false with ⟨cs1, st2⟩
            rcases hrec2 : syncChildrenDisabled pol st2 rest e with ⟨rest1, st3⟩
            have h2 := ih rest hszr st2 e
            rw [hrec2] at h2
            simp only [hrec1, hrec2, List.map_cons, h2,
              backingId_withChildren, backingId_withDisabled]
          · split
            · rcases hrec1 : syncChildrenDisabled pol (fire pol st (c.withDisabled false))
                  (c.withDisabled false).children true with ⟨cs1, st2⟩
              rcases hrec2 : syncChildrenDisabled pol st2 rest e with ⟨rest1, st3⟩
              have h2 := ih rest hszr st2 e
              rw [hrec2] at h2
              simp only [hrec1, hrec2, List.map_cons, h2,
                backingId_withChildren, backingId_withDisabled]
            · rcases hrec1 : syncChildrenDisabled pol st rest e with ⟨rest1, st1⟩
              have h2 := ih rest hszr st e
              rw [hrec1] at h2
              simp only [hrec1, List.map_cons, h2]


theorem sublist_cons_mem_head {α : Type} {a : α} {l t : List α}
    (ht : t.Sublist (a :: l)) (hmem : a ∈ t) (hna : a ∉ l) :
    ∃ t', t = a :: t' ∧ t'.Sublist l := by
  cases ht with
  | cons _ h => exact absurd (h.subset hmem) hna
  | cons₂ _ h => exact ⟨_, rfl, h⟩

theorem sublist_cons_not_mem {α : Type} {a : α} {l t : List α}
    (ht : t.Sublist (a :: l)) (hna : a ∉ t) : t.Sublist l := by
  cases ht with
  | cons _ h => exact h
  | cons₂ _ h => exact absurd (List.mem_cons_self _ _) hna

theorem findIdx_append_false {α : Type} {p : α → Bool} {l₁ : List α}
    (h : ∀ a ∈ l₁, p a = false) (l₂ : List α) :
    (l₁ ++ l₂).findIdx p = l₁.length + l₂.findIdx p := by
  induction l₁ with
  | nil => simp
  | cons x xs ih =>
      have hx := h x (List.mem_cons_self x xs)
      simp only [List.cons_append, List.findIdx_cons, hx, cond_false,
        List.length_cons]
      rw [ih (fun a ha => h a (List.mem_cons_of_mem x ha))]
      omega

theorem set_append_len {α : Type} (l₁ : List α) (a b : α) (l₂ : List α) :
    (l₁ ++ a :: l₂).set l₁.length b = l₁ ++ b :: l₂ := by
  induction l₁ with
  | nil => rfl
  | cons x xs ih => simp [List.set, ih]

theorem insertChildAt_append (l₁ : List TreeItem) (c : TreeItem)
    (l₂ : List TreeItem) : insertChildAt l₁.length c (l₁ ++ l₂) = l₁ ++ c :: l₂ := by
  simp [insertChildAt, List.take_left, List.drop_left]

theorem getElem?_append_len {α : Type} (l₁ : List α) (a : α) (l₂ : List α) :
    (l₁ ++ a :: l₂)[l₁.length]? = some a := by
  induction l₁ with
  | nil => simp
  | cons x xs ih => simpa using ih


/-- Loop invariant of the reuse-or-insert walk (lines 676-701): processing
`items` against a current child list made of an already-final prefix `done`
and a still-pending kept suffix `tail` (whose backing ids follow document
order) produces exactly `done` followed by the items in document order. -/
theorem syncChildList_shape (pol : XccdfPolicy) (parent : XccdfItem) :
    ∀ (items : List XccdfItem) (h : ∀ x ∈ items, sizeOf x < sizeOf parent)
      (st : SyncSt) (keptIds : List String) (done tail : List TreeItem),
    ((items.map XccdfItem.id).Nodup) →
    (∀ d ∈ done, ∀ y ∈ items, d.backingId ≠ some y.id) →
    ((tail.map TreeItem.backingId).Sublist (items.map (fun x => some x.id))) →
    (∀ y ∈ items, ((keptIds.contains y.id = true) ↔
        some y.id ∈ tail.map TreeItem.backingId)) →
    (syncChildList pol parent st keptIds done.length (done ++ tail) items h).1.map
        TreeItem.backingId
      = done.map TreeItem.backingId ++ items.map (fun x => some x.id) := by
  intro items
  induction items with
  | nil =>
      intro h st keptIds done tail hnodup hdisc htail hkept
      rw [syncChildList]
      have hmapnil : tail.map TreeItem.backingId = [] := by simpa using htail
      simp [List.map_append, hmapnil]
  | cons x rest ih =>
      intro h st keptIds done tail hnodup hdisc htail hkept
      have hxrest : x.id ∉ rest.map XccdfItem.id := by
        simp only [List.map_cons] at hnodup
        exact (List.nodup_cons.mp hnodup).1
      have hnodup' : (rest.map XccdfItem.id).Nodup := by
        simp only [List.map_cons] at hnodup
        exact (List.nodup_cons.mp hnodup).2
      have hnotin : some x.id ∉ rest.map (fun y => some y.id) := by
        intro hmem
        rcases List.mem_map.mp hmem with ⟨y, hy, he⟩
        apply hxrest
        exact List.mem_map.mpr ⟨y, hy, by injection he⟩
      have htailc : (tail.map TreeItem.backingId).Sublist
          (some x.id :: rest.map (fun y => some y.id)) := by
        simpa using htail
      by_cases hc : keptIds.contains x.id = true
      · have hmem : some x.id ∈ tail.map TreeItem.backingId :=
          (hkept x (List.mem_cons_self x rest)).mp hc
        obtain ⟨t', hteq, ht'⟩ := sublist_cons_mem_head htailc hmem hnotin
        cases tail with
        | nil => simp at hteq
        | cons c tail0 =>
            simp only [List.map_cons, List.cons.injEq] at hteq
            obtain ⟨hcb, ht0⟩ := hteq
            have hdfalse : ∀ d ∈ done, (d.backingId == some x.id) = false := by
              intro d hd
              exact beq_eq_false_iff_ne.mpr (hdisc d hd x (List.mem_cons_self x rest))
            have hidx : (done ++ c :: tail0).findIdx
                (fun cc => cc.backingId == some x.id) = done.length := by
              rw [findIdx_append_false hdfalse]
              simp [List.findIdx_cons, hcb]
            have hget : (done ++ c :: tail0)[done.length]? = some c :=
              getElem?_append_len done c tail0
            rw [syncChildList, if_pos hc]
            dsimp only
            rw [hidx, hget]
            dsimp only
            rw [set_append_len]
            have hcid : (syncTreeItem pol st c x true).1.backingId = some x.id :=
              syncTreeItem_fst_backingId pol st c x true
            have hdisc' : ∀ d ∈ done ++ [(syncTreeItem pol st c x true).1],
                ∀ y ∈ rest, d.backingId ≠ some y.id := by
              intro d hd y hy
              rcases List.mem_append.mp hd with hd | hd
              · exact hdisc d hd y (List.mem_cons_of_mem x hy)
              · have hdc : d = (syncTreeItem pol st c x true).1 := by simpa using hd
                subst hdc
                rw [hcid]
                intro hcontra
                injection hcontra with hxy
                apply hxrest
                exact List.mem_map.mpr ⟨y, hy, hxy.symm⟩
            have htail'' : (tail0.map TreeItem.backingId).Sublist
                (rest.map (fun y => some y.id)) := by
              rw [ht0]
              exact ht'
            have hkept'' : ∀ y ∈ rest, ((keptIds.contains y.id = true) ↔
                some y.id ∈ tail0.map TreeItem.backingId) := by
              intro y hy
              have hyx : y.id ≠ x.id := by
                intro he
                apply hxrest
                rw [← he]
                exact List.mem_map.mpr ⟨y, hy, rfl⟩
              have hk := hkept y (List.mem_cons_of_mem x hy)
              rw [hk]
              simp only [List.map_cons, hcb, List.mem_cons]
              constructor
              · intro hca
                rcases hca with he | hm
                · exact absurd (by injection he) hyx
                · exact hm
              · intro hm
                exact Or.inr hm
            have hrec := ih (fun y hy => h y (List.mem_cons_of_mem x hy))
              (syncTreeItem pol st c x true).2 keptIds
              (done ++ [(syncTreeItem pol st c x true).1]) tail0
              hnodup' hdisc' htail'' hkept''
            have hlen : (done ++ [(syncTreeItem pol st c x true).1]).length
                = done.length + 1 := by simp
            have happ : (done ++ [(syncTreeItem pol st c x true).1]) ++ tail0
                = done ++ (syncTreeItem pol st c x true).1 :: tail0 := by simp
            rw [hlen, happ] at hrec
            simpa [List.map_append, hcid] using hrec
      · have hnmem : some x.id ∉ tail.map TreeItem.backingId := by
          intro hm
          exact hc ((hkept x (List.mem_cons_self x rest)).mpr hm)
        have htail2 : (tail.map TreeItem.backingId).Sublist
            (rest.map (fun y => some y.id)) :=
          sublist_cons_not_mem htailc hnmem
        rw [syncChildList, if_neg hc]
        dsimp only
        rw [insertChildAt_append]
        have hcid : (syncTreeItem pol st freshTreeItem x true).1.backingId
            = some x.id := syncTreeItem_fst_backingId pol st freshTreeItem x true
        have hdisc' : ∀ d ∈ done ++ [(syncTreeItem pol st freshTreeItem x true).1],
            ∀ y ∈ rest, d.backingId ≠ some y.id := by
          intro d hd y hy
          rcases List.mem_append.mp hd with hd | hd
          · exact hdisc d hd y (List.mem_cons_of_mem x hy)
          · have hdc : d = (syncTreeItem pol st freshTreeItem x true).1 := by
              simpa using hd
            subst hdc
            rw [hcid]
            intro hcontra
            injection hcontra with hxy
            apply hxrest
            exact List.mem_map.mpr ⟨y, hy, hxy.symm⟩
        have hkept'' : ∀ y ∈ rest, ((keptIds.contains y.id = true) ↔
            some y.id ∈ tail.map TreeItem.backingId) := by
          intro y hy
          exact hkept y (List.mem_cons_of_mem x hy)
        have hrec := ih (fun y hy => h y (List.mem_cons_of_mem x hy))
          (syncTreeItem pol st freshTreeItem x true).2 keptIds
          (done ++ [(syncTreeItem pol st freshTreeItem x true).1]) tail
          hnodup' hdisc' htail2 hkept''
        have hlen : (done ++ [(syncTreeItem pol st freshTreeItem x true).1]).length
            = done.length + 1 := by simp
        have happ : (done ++ [(syncTreeItem pol st freshTreeItem x true).1]) ++ tail
            = done ++ (syncTreeItem pol st freshTreeItem x true).1 :: tail := by simp
        rw [hlen, happ] at hrec
        simpa [List.map_append, hcid] using hrec


theorem contains_filterMap_backingId (K : List TreeItem) (s : String) :
    ((K.filterMap TreeItem.backingId).contains s = true) ↔
      some s ∈ K.map TreeItem.backingId := by
  simp [List.mem_filterMap, List.mem_map]

theorem sync_branch_children_map (pol : XccdfPolicy) (stX : SyncSt)
    (tX : TreeItem) (e : Bool) :
    ((tX.withChildren
        (syncChildrenDisabled pol stX tX.children e).1).children.map
      TreeItem.backingId) = tX.children.map TreeItem.backingId := by
  rw [children_withChildren]
  exact syncChildrenDisabled_map_backingId pol (sizeOf tX.children + 1)
    tX.children (by omega) stX e

theorem insertChildAt_zero (c : TreeItem) (l : List TreeItem) :
    insertChildAt 0 c l = c :: l := by
  simp [insertChildAt]

/-- For a Benchmark node the recursive branch runs the deletion loop over the
node's children as updated by the data copy (which leaves the child list
untouched) and hands its survivors and its map entries to the reuse-or-insert
walk. -/
theorem syncTreeItem_benchmark_children (pol : XccdfPolicy) (st : SyncSt)
    (t : TreeItem) (it : XccdfItem) (hty : it.ty = XccdfType.benchmark)
    (items : List XccdfItem) (hitems : itemsToAddOf it = items)
    (h : ∀ x ∈ items, sizeOf x < sizeOf it) :
    ∃ st', (syncTreeItem pol st t it true).1.children
      = (syncChildList pol it st'
          (List.filterMap TreeItem.backingId
            (deleteStaleChildren (fun c => items.any
              (fun x => c.backingId == some x.id)) t.children).2)
          0
          (deleteStaleChildren (fun c => items.any
            (fun x => c.backingId == some x.id)) t.children).1
          items h).1 := by
  subst hitems
  rw [syncTreeItem, hty]
  dsimp only
  rw [if_pos rfl]
  dsimp only
  rw [children_withChildren]
  simp only [children_withBacking, children_withIdText, children_withText]
  exact ⟨_, rfl⟩

/-- C3 counterexample: the claimed invariant — after recursively
synchronizing a Group or Benchmark node the child list is exactly the child
Values followed by the child Rules/Groups, in document order — fails on the
program.  A Benchmark whose only child is the Value "a", synchronized into a
display node holding two consecutive stale children (backed by the absent
items "x" and "y"): deleting "x" shifts "y" into the loop index, the loop
counter skips it, and "y" survives.  The result is ["a", "y"], not the
claimed ["a"]. -/
theorem claim_C3_stale_child_survives :
    (syncTreeItem ⟨[]⟩ ⟨0, []⟩
        (TreeItem.mk "" "" none false false false
          [TreeItem.mk "" "" (some ⟨"x", XccdfType.rule, true⟩) false false false [],
           TreeItem.mk "" "" (some ⟨"y", XccdfType.rule, true⟩) false false false []])
        (XccdfItem.mk "b" XccdfType.benchmark true "B"
          [XccdfItem.mk "a" XccdfType.value true "A" []]) true).1.children.map
      TreeItem.backingId = [some "a", some "y"] ∧
    [some "a", some "y"] ≠
      ((childValues (XccdfItem.mk "b" XccdfType.benchmark true "B"
            [XccdfItem.mk "a" XccdfType.value true "A" []])).map
          (fun x => some x.id)
        ++ (childContent (XccdfItem.mk "b" XccdfType.benchmark true "B"
            [XccdfItem.mk "a" XccdfType.value true "A" []])).map
          (fun x => some x.id)) := by
  constructor
  · obtain ⟨st', hch⟩ := syncTreeItem_benchmark_children ⟨[]⟩ ⟨0, []⟩
      (TreeItem.mk "" "" none false false false
        [TreeItem.mk "" "" (some ⟨"x", XccdfType.rule, true⟩) false false false [],
         TreeItem.mk "" "" (some ⟨"y", XccdfType.rule, true⟩) false false false []])
      (XccdfItem.mk "b" XccdfType.benchmark true "B"
        [XccdfItem.mk "a" XccdfType.value true "A" []]) rfl
      [XccdfItem.mk "a" XccdfType.value true "A" []] rfl
      (fun x hx => sizeOf_lt_of_mem_itemsToAdd
        (show x ∈ itemsToAddOf (XccdfItem.mk "b" XccdfType.benchmark true "B"
          [XccdfItem.mk "a" XccdfType.value true "A" []]) from hx))
    rw [hch]
    rw [show deleteStaleChildren
        (fun c => [XccdfItem.mk "a" XccdfType.value true "A" []].any
          (fun x => c.backingId == some x.id))
        (TreeItem.mk "" "" none false false false
          [TreeItem.mk "" "" (some ⟨"x", XccdfType.rule, true⟩) false false false [],
           TreeItem.mk "" "" (some ⟨"y", XccdfType.rule, true⟩) false false false []]).children
      = ([TreeItem.mk "" "" (some ⟨"y", XccdfType.rule, true⟩) false false false []], [])
      from rfl]
    dsimp only
    rw [show List.filterMap TreeItem.backingId ([] : List TreeItem) = [] from rfl]
    rw [syncChildList]
    rw [if_neg (by decide)]
    dsimp only
    rw [insertChildAt_zero]
    rw [syncChildList]
    dsimp only
    rw [List.map_cons, syncTreeItem_fst_backingId]
    rfl
  · decide

end TailoringWindow
